import Mathlib

/-!
# Verification of the pdx-watcher streaming-merge and caching core

This file gives a shallow embedding of the core of the `pdx-watcher`
repository and proves (or refutes) the frozen specification claims about it.

Embedded components and their sources:

* the k-way streaming merge of `internal/scraper/cinema21.go`
  (`Interleaved`, `(*interleavedScraper).run`, `mergeHeap`, plus Go's
  `container/heap` sift procedures that `heap.Push` / `heap.Pop` invoke);
* the whole-result cache of `internal/scraper/cache.go`
  (`newCachingScraper`, `cacheKey`, `(*cachingScraper).ScrapeShowtimes`);
* the transport cache of `internal/httputil/cache_transport.go`
  (`(*CacheTransport).RoundTrip`, `requestWantsFresh`,
  `responseCacheControl`, `cacheExpires`, `ensureCache`).

Modelling conventions:

* `time.Time` values are modelled as `Int` timestamps; the Go zero time is
  the integer `0` where the code tests `IsZero`, and `Option Int` models a
  possibly-zero expiry (`none` = zero time = no expiry).
* channels are modelled by the finite sequence of messages delivered on
  them; the nondeterministic interleaving of the per-source worker
  goroutines is modelled by quantifying over all delivery schedules that
  respect each source's own send order.
* `context` cancellation is not modelled: runs are modelled to completion.
-/

set_option maxHeartbeats 1000000

namespace PdxWatcher

/-! ## Data model (internal/showtime.go)

Only the fields the merge and the caches inspect are carried: the merge
orders exclusively by `Showtime.StartTime` (`mergeHeap.Less`), and the
claims identify items by `ID`/`Summary`.  The remaining payload fields
(`Description`, `Location`, hints, links, ...) are opaque to every
operation verified here. -/

structure SourceShowtime where
  id : String
  summary : String
  startTime : Int
  deriving DecidableEq, Repr

structure ShowtimeListItem where
  showtime : SourceShowtime
  deriving DecidableEq, Repr

/-- `internal.ListShowtimesRequest`: `After`/`Before` are `time.Time`
(zero = unset, modelled as `0`), `Limit` an `int`, `Anchor` a string. -/
structure ListShowtimesRequest where
  after : Int
  before : Int
  limit : Int
  anchor : String
  deriving DecidableEq, Repr

/-- The ordering key used by `mergeHeap.Less`:
`buffer[i].Showtime.StartTime`. -/
def startKey (it : ShowtimeListItem) : Int :=
  it.showtime.startTime

/-! ## Go `container/heap` over `mergeHeap`

`mergeHeap` is a min-heap of scraper indices (`indices []int`) ordered by
`buffer[indices[k]].Showtime.StartTime`; `Less i j` is a strict `Before`.
`heap.Push` appends and sifts up; `heap.Pop` swaps the root to the end,
sifts down over the shortened prefix, and removes the last element.  The
sift procedures below are Go's `container/heap` `up` and `down`,
specialised to this `Less`/`Swap`/`Push`/`Pop`.  The heap never contains
an index whose buffer slot is nil, so the `key` function's default value
for an out-of-range or nil slot is irrelevant (Go would panic there). -/

/-- `(*mergeHeap).Swap`: exchange two positions of the index array. -/
def lswap (l : List Nat) (i j : Nat) : List Nat :=
  (l.set i (l.getD j 0)).set j (l.getD i 0)

/-- `container/heap.up`, fuelled so the recursion is structural (each
step moves `j` to its parent `(j-1)/2 < j`, so `j` itself is enough
fuel): sift the element at position `j` towards the root while it is
strictly `Less` than its parent. -/
def heapUpGo (key : Nat → Int) : Nat → List Nat → Nat → List Nat
  | 0, l, _ => l
  | fuel + 1, l, j =>
    if j = 0 then l
    else
      let i := (j - 1) / 2
      if key (l.getD j 0) < key (l.getD i 0) then heapUpGo key fuel (lswap l i j) i
      else l

def heapUp (key : Nat → Int) (l : List Nat) (j : Nat) : List Nat :=
  heapUpGo key j l j

/-- `container/heap.down`, fuelled (each step moves `i` to a child
`≥ 2i+1` below `m`, so `m - i` is enough fuel): sift the element at
position `i` down within the prefix of length `m`, descending to the
smaller child. -/
def heapDownGo (key : Nat → Int) : Nat → List Nat → Nat → Nat → List Nat
  | 0, l, _, _ => l
  | fuel + 1, l, i, m =>
    if 2 * i + 1 < m then
      let j := if 2 * i + 2 < m ∧ key (l.getD (2 * i + 2) 0) < key (l.getD (2 * i + 1) 0)
               then 2 * i + 2 else 2 * i + 1
      if key (l.getD j 0) < key (l.getD i 0) then heapDownGo key fuel (lswap l i j) j m
      else l
    else l

def heapDown (key : Nat → Int) (l : List Nat) (i m : Nat) : List Nat :=
  heapDownGo key (m - i) l i m

/-- `heap.Push(h, x)`: append `x`, then sift it up from the last slot. -/
def heapPush (key : Nat → Int) (l : List Nat) (x : Nat) : List Nat :=
  heapUp key (l ++ [x]) l.length

/-- `heap.Pop(h)`: swap root and last, sift the new root down over the
shortened prefix, remove and return the old root (`mergeHeap.Pop`). -/
def heapPop (key : Nat → Int) (l : List Nat) : Nat × List Nat :=
  let m := l.length - 1
  let root := l.headD 0
  let a := (l.take m).set 0 (l.getD m 0)
  (root, heapDown key a 0 m)

/-! ## The k-way merge loop (`(*interleavedScraper).run`)

The coordinator owns `buffer` (current head per scraper), `pending`
(queued items per scraper), `closed` flags, the heap of indices, and the
emitted count `sent`.  Worker goroutines deliver `mergedSlot` messages on
`mergeChan`: an item tagged with its scraper index, or a nil item
signalling exhaustion.  The coordinator's `for` loop pops and emits
whenever `canPop() && h.Len() > 0 && sent < limit`, otherwise receives
the next slot; once the channel closes it drains the heap.  Given a fixed
delivery order on `mergeChan`, the loop is deterministic; `runLoop` below
is that loop with the delivery order as an explicit argument. -/

/-- `mergedSlot`: `item` is `none` when the scraper's stream has closed. -/
structure Slot where
  item : Option ShowtimeListItem
  index : Nat
  deriving DecidableEq, Repr

structure MergeState where
  buffer : List (Option ShowtimeListItem)
  pending : List (List ShowtimeListItem)
  closed : List Bool
  hp : List Nat
  sent : Nat
  deriving DecidableEq, Repr

/-- The key function `mergeHeap.Less` reads at comparison time:
`buffer[j].Showtime.StartTime` (`0` stands for the nil dereference that
the heap invariant rules out). -/
def stKey (st : MergeState) : Nat → Int := fun j =>
  match st.buffer.getD j none with
  | some it => startKey it
  | none => 0

/-- `canPop`: every scraper is closed, or has a buffered head, or has
pending items. -/
def canPop (st : MergeState) : Bool :=
  (List.range st.buffer.length).all fun i =>
    st.closed.getD i false || (st.buffer.getD i none).isSome ||
      !(st.pending.getD i []).isEmpty

/-- `refill(j)`: move the head of `pending[j]` into `buffer[j]` and push
`j` back onto the heap (the push compares with the updated buffer). -/
def refill (st : MergeState) (j : Nat) : MergeState :=
  match st.pending.getD j [] with
  | [] => st
  | p :: rest =>
    let st' : MergeState :=
      { st with buffer := st.buffer.set j (some p),
                pending := st.pending.set j rest }
    { st' with hp := heapPush (stKey st') st'.hp j }

/-- One pop of the merge loop: `j := heap.Pop(h)`, take `buffer[j]`,
clear the slot, `refill(j)`.  Returns the item (which the loop emits when
non-nil) and the updated state; `sent` is incremented by the caller. -/
def popOne (st : MergeState) : Option ShowtimeListItem × MergeState :=
  let r := heapPop (stKey st) st.hp
  let item := st.buffer.getD r.1 none
  let st' : MergeState := { st with buffer := st.buffer.set r.1 none, hp := r.2 }
  (item, refill st' r.1)

/-- Items currently held by the coordinator for the termination measure:
each pop either consumes a heap entry or moves a pending item forward. -/
def popMeasure (st : MergeState) : Nat :=
  st.hp.length + 2 * (st.pending.map List.length).sum

/-- The maximal run of pops the loop performs before its next receive:
fuelled recursion (`popMeasure` fuel is enough, every pop strictly
decreases it, see `popPhase`). -/
def popPhaseGo (limit : Nat) : Nat → MergeState → List ShowtimeListItem × MergeState
  | 0, st => ([], st)
  | fuel + 1, st =>
    if canPop st && !st.hp.isEmpty && decide (st.sent < limit) then
      match popOne st with
      | (none, st') => popPhaseGo limit fuel st'
      | (some it, st') =>
        let r := popPhaseGo limit fuel { st' with sent := st'.sent + 1 }
        (it :: r.1, r.2)
    else ([], st)

def popPhase (limit : Nat) (st : MergeState) : List ShowtimeListItem × MergeState :=
  popPhaseGo limit (popMeasure st) st

/-- The drain after `mergeChan` closes:
`for h.Len() > 0 && sent < limit { pop; emit }`. -/
def drainGo (limit : Nat) : Nat → MergeState → List ShowtimeListItem
  | 0, _ => []
  | fuel + 1, st =>
    if !st.hp.isEmpty && decide (st.sent < limit) then
      match popOne st with
      | (none, st') => drainGo limit fuel st'
      | (some it, st') => it :: drainGo limit fuel { st' with sent := st'.sent + 1 }
    else []

def drain (limit : Nat) (st : MergeState) : List ShowtimeListItem :=
  drainGo limit (popMeasure st) st

/-- Receiving one `mergedSlot`: a nil item marks the scraper closed; an
item lands in the empty buffer slot (pushing the index onto the heap) or
is appended to that scraper's pending queue. -/
def applySlot (st : MergeState) (s : Slot) : MergeState :=
  match s.item with
  | none => { st with closed := st.closed.set s.index true }
  | some it =>
    match st.buffer.getD s.index none with
    | none =>
      let st' : MergeState := { st with buffer := st.buffer.set s.index (some it) }
      { st' with hp := heapPush (stKey st') st'.hp s.index }
    | some _ =>
      { st with pending := st.pending.set s.index (st.pending.getD s.index [] ++ [it]) }

/-- The coordinator loop of `run`, parameterised by the delivery order
`msgs` on `mergeChan`: pop while possible, then receive the next slot;
when the channel is exhausted (closed), drain the heap. -/
def runLoop (limit : Nat) : List Slot → MergeState → List ShowtimeListItem
  | [], st =>
    let r := popPhase limit st
    r.1 ++ drain limit r.2
  | slot :: rest, st =>
    let r := popPhase limit st
    r.1 ++ runLoop limit rest (applySlot r.2 slot)

/-- `limit := req.Limit; if limit <= 0 { limit = 1<<31 - 1 }`. -/
def effLimit (reqLimit : Int) : Nat :=
  if reqLimit ≤ 0 then 2 ^ 31 - 1 else reqLimit.toNat

def initState (n : Nat) : MergeState :=
  { buffer := List.replicate n none
    pending := List.replicate n []
    closed := List.replicate n false
    hp := []
    sent := 0 }

/-- `(*interleavedScraper).run` over `n` scrapers for a request with
limit `reqLimit`, given the delivery order `msgs` on `mergeChan`. -/
def interleavedRun (n : Nat) (reqLimit : Int) (msgs : List Slot) : List ShowtimeListItem :=
  runLoop (effLimit reqLimit) msgs (initState n)

/-! ## Delivery schedules

A worker for scraper `i` whose stream yields `items` sends
`{item: &it, index: i}` for each item in order and then `{index: i}`;
`mergeChan` is unbuffered, so the coordinator receives an interleaving of
these per-source sequences. -/

/-- The messages scraper index `i` sends for its item list. -/
def slotStream (i : Nat) (items : List ShowtimeListItem) : List Slot :=
  items.map (fun it => ⟨some it, i⟩) ++ [⟨none, i⟩]

/-- The subsequence of `msgs` sent by scraper `i`. -/
def proj (i : Nat) (msgs : List Slot) : List (Option ShowtimeListItem) :=
  (msgs.filter (fun s => s.index == i)).map (fun s => s.item)

/-- `msgs` is a delivery order for sources `srcs`: every message is
tagged with a real source index and each source's subsequence is exactly
its items, in order, followed by the close marker. -/
def ValidSchedule (srcs : List (List ShowtimeListItem)) (msgs : List Slot) : Prop :=
  (∀ s ∈ msgs, s.index < srcs.length) ∧
    ∀ i, i < srcs.length → proj i msgs = (srcs.getD i []).map some ++ [none]

instance (srcs : List (List ShowtimeListItem)) (msgs : List Slot) :
    Decidable (ValidSchedule srcs msgs) := by
  unfold ValidSchedule
  exact instDecidableAnd

/-- Output order predicate: non-decreasing `StartTime`. -/
def SortedByStart (l : List ShowtimeListItem) : Prop :=
  l.Pairwise fun a b => startKey a ≤ startKey b

instance (l : List ShowtimeListItem) : Decidable (SortedByStart l) :=
  List.instDecidablePairwise l

/-- All interleavings of two message sequences (used to check the
concrete spec examples over every delivery order of two workers);
fuelled on the total length so the recursion is structural. -/
def interleavingsGo : Nat → List Slot → List Slot → List (List Slot)
  | _, [], ys => [ys]
  | _, x :: xs, [] => [x :: xs]
  | 0, _ :: _, _ :: _ => []
  | fuel + 1, x :: xs, y :: ys =>
    (interleavingsGo fuel xs (y :: ys)).map (x :: ·) ++
      (interleavingsGo fuel (x :: xs) ys).map (y :: ·)

def interleavings (xs ys : List Slot) : List (List Slot) :=
  interleavingsGo (xs.length + ys.length) xs ys

/-! ## Aggregator construction (`Interleaved`, `Descriptor`, `None`)

`Interleaved` flattens nested `*interleavedScraper` values at build time
(one level deep — the only depth its own construction can produce),
returns `None()` for zero scrapers and the single scraper unchanged for
one.  Scraper values are modelled as a tree: a `leaf` stands for any
external `internal.Scraper` implementation (identified by its descriptor
and the item stream it produces), `noneS` for the `noneScraper`, and
`interleaved` for an `*interleavedScraper`.  Go `nil` scraper arguments,
which `Interleaved` skips, are not modelled: the claims quantify over
actual sources. -/

/-- `(*noneScraper).Descriptor()`: a fixed string from generated
protobuf code (`proto.PdxSite_None....GoString()`); its exact value is
irrelevant to every claim. -/
def noneDescriptor : String := "none"

inductive GScraper where
  | leaf (descriptor : String) (items : List ShowtimeListItem)
  | noneS
  | interleaved (children : List GScraper)

mutual

/-- `Descriptor()`: leaf scrapers return their own descriptor;
`(*interleavedScraper).Descriptor` is
`"interleaved:" + strings.Join(parts, ",")`. -/
def descriptorOf : GScraper → String
  | .leaf d _ => d
  | .noneS => noneDescriptor
  | .interleaved cs => "interleaved:" ++ String.intercalate "," (descriptorList cs)

def descriptorList : List GScraper → List String
  | [] => []
  | s :: rest => descriptorOf s :: descriptorList rest

end

/-- What one argument contributes to the flattened scraper list: an
`*interleavedScraper` its children (`i.scrapers...`), anything else
itself. -/
def contrib : GScraper → List GScraper
  | .interleaved cs => cs
  | s => [s]

/-- The one-level flattening loop of `Interleaved`. -/
def flatten1 : List GScraper → List GScraper
  | [] => []
  | s :: rest => contrib s ++ flatten1 rest

/-- `Interleaved(scrapers...)`: flatten, then return `None()` for zero,
the scraper itself for one, and an `*interleavedScraper` otherwise. -/
def Interleaved (scrapers : List GScraper) : GScraper :=
  match flatten1 scrapers with
  | [] => .noneS
  | [s] => s
  | flat => .interleaved flat

def isInterleaved : GScraper → Bool
  | .interleaved _ => true
  | _ => false

/-- Well-formedness of every scraper value reachable through the public
API: an `*interleavedScraper` is only ever built by `Interleaved`, hence
has at least two children, none of which is itself interleaved. -/
def wfScraper : GScraper → Bool
  | .interleaved cs => 2 ≤ cs.length && cs.all fun c => !isInterleaved c
  | _ => true

/-! ## Result cache (`internal/scraper/cache.go`)

`newCachingScraper` wraps a scraper with a `hashicorp/golang-lru/v2
expirable.LRU` keyed by `Descriptor() + ":" + cacheKey(req)`.  The
expirable LRU is an external dependency; it is modelled by its documented
behaviour (which `Cached`'s own comment restates): an LRU list of bounded
capacity whose `Get` treats an entry older than `ttl` as absent
(`ttl = 0` means no expiration) and refreshes recency, and whose `Add`
inserts most-recent-first, evicting the least recently used entry beyond
capacity. -/

/-- `formatTime`: RFC3339 for non-zero times, `""` for the zero time.
(`Int` timestamps render as decimal strings here; only injectivity and
the zero case matter to any claim.) -/
def formatTime (t : Int) : String :=
  if t = 0 then "" else toString t

/-- `cacheKey`: `fmt.Sprintf("%s|%s|%d|%s", after, before, limit, anchor)`. -/
def cacheKey (req : ListShowtimesRequest) : String :=
  formatTime req.after ++ "|" ++ formatTime req.before ++ "|" ++
    toString req.limit ++ "|" ++ req.anchor

structure ExpEntry (α : Type) where
  value : α
  insertedAt : Int
  deriving DecidableEq, Repr

/-- Model of `expirable.LRU`: entries most-recent-first. -/
structure ExpLRU (α : Type) where
  entries : List (String × ExpEntry α)
  cap : Nat
  ttl : Int
  deriving DecidableEq, Repr

/-- `LRU.Get` at time `now`: an entry past its TTL is treated as absent;
a hit refreshes recency. -/
def expGet {α : Type} (c : ExpLRU α) (k : String) (now : Int) :
    Option α × ExpLRU α :=
  match c.entries.find? (fun p => p.1 == k) with
  | some (_, e) =>
    if c.ttl ≤ 0 ∨ now < e.insertedAt + c.ttl then
      (some e.value,
       { c with entries :=
           (k, e) :: c.entries.filter (fun p => p.1 != k) })
    else (none, c)
  | none => (none, c)

/-- `LRU.Add` at time `now`: insert most-recent-first, evict beyond
capacity. -/
def expAdd {α : Type} (c : ExpLRU α) (k : String) (v : α) (now : Int) : ExpLRU α :=
  { c with entries :=
      ((k, ⟨v, now⟩) :: c.entries.filter (fun p => p.1 != k)).take c.cap }

/-- `newCachingScraper` clamps a non-positive `maxEntries` to 64 (it has
no failure path at all). -/
def cachingScraperCapacity (maxEntries : Int) : Int :=
  if maxEntries ≤ 0 then 64 else maxEntries

/-- A cache-wrapped scraper: the wrapped source is modelled as the
deterministic function from a request to the full item stream it emits
for that request. -/
structure CachingScraper where
  descriptor : String
  inner : ListShowtimesRequest → List ShowtimeListItem
  cache : ExpLRU (List ShowtimeListItem)

/-- `newCachingScraper(inner, maxEntries, ttl)` on a non-nil inner
scraper (capacity clamped, empty cache). -/
def newCachingScraper (descriptor : String)
    (inner : ListShowtimesRequest → List ShowtimeListItem)
    (maxEntries : Int) (ttl : Int) : CachingScraper :=
  { descriptor := descriptor, inner := inner,
    cache := { entries := [], cap := (cachingScraperCapacity maxEntries).toNat,
               ttl := ttl } }

/-- `(*cachingScraper).ScrapeShowtimes` at time `now`: on a hit replay
the stored list; on a miss drain the wrapped source, store the list, and
replay it.  The third component counts fetches of the wrapped source. -/
def scrapeCached (c : CachingScraper) (now : Int) (req : ListShowtimesRequest) :
    List ShowtimeListItem × CachingScraper × Nat :=
  let key := c.descriptor ++ ":" ++ cacheKey req
  match expGet c.cache key now with
  | (some list, cache') => (list, { c with cache := cache' }, 0)
  | (none, cache') =>
    let list := c.inner req
    (list, { c with cache := expAdd cache' key list now }, 1)

/-! ## Transport cache (`internal/httputil/cache_transport.go`)

Requests carry the single `Cache-Control` value `Header.Get` returns;
responses carry the full `Header["Cache-Control"]` value list (the only
header the cache logic inspects).  The body is an opaque string.  The
base round-tripper's answer for the one forwarded call is passed in as
`origin` (`Except` models a transport error).  `time.Now()` is the
explicit `now` argument; the zero `Expires` time is `none`. -/

structure HRequest where
  method : String
  url : String
  cacheControl : String
  deriving DecidableEq, Repr

structure HResponse where
  status : Int
  cacheControl : List String
  body : String
  deriving DecidableEq, Repr

structure CachedResponse where
  status : Int
  cacheControl : List String
  body : String
  expires : Option Int
  deriving DecidableEq, Repr

/-- Model of `hashicorp/golang-lru/v2` `lru.Cache` (plain LRU):
most-recent-first entry list with capacity `cap`. -/
structure LRUCache where
  entries : List (String × CachedResponse)
  cap : Nat
  deriving DecidableEq, Repr

def lruLookup (c : LRUCache) (k : String) : Option CachedResponse :=
  (c.entries.find? (fun p => p.1 == k)).map (fun p => p.2)

/-- `Cache.Get`: a hit refreshes recency. -/
def lruGet (c : LRUCache) (k : String) : Option CachedResponse × LRUCache :=
  match c.entries.find? (fun p => p.1 == k) with
  | some (_, v) =>
    (some v, { c with entries := (k, v) :: c.entries.filter (fun p => p.1 != k) })
  | none => (none, c)

/-- `Cache.Add`: insert most-recent-first, evict beyond capacity. -/
def lruAdd (c : LRUCache) (k : String) (v : CachedResponse) : LRUCache :=
  { c with entries := ((k, v) :: c.entries.filter (fun p => p.1 != k)).take c.cap }

/-- `Cache.Remove`. -/
def lruRemove (c : LRUCache) (k : String) : LRUCache :=
  { c with entries := c.entries.filter (fun p => p.1 != k) }

/-- `lru.New(size)`: errors on a non-positive size (returns the
capacity on success). -/
def lruNew (size : Int) : Except String Int :=
  if size ≤ 0 then .error "must provide a positive size" else .ok size

/-- `(*CacheTransport).ensureCache`: a non-positive `MaxEntries` is
replaced by `defaultLRUMaxEntries = 1000` before calling `lru.New`. -/
def ensureCache (maxEntries : Int) : Except String Int :=
  lruNew (if maxEntries ≤ 0 then 1000 else maxEntries)

/-! Character-level models of the Go string primitives the cache-control
parsing uses (`strings.Split`, `strings.TrimSpace`, `strings.ToLower`,
`strings.HasPrefix`/`CutPrefix`, `strconv.Atoi`).  They operate on the
underlying character list; the non-ASCII corners of the Go originals
(Unicode space classes and case folding) are irrelevant to every
`Cache-Control` directive. -/

def splitOnCommaChars : List Char → List (List Char)
  | [] => [[]]
  | c :: rest =>
    let r := splitOnCommaChars rest
    if c = ',' then [] :: r
    else
      match r with
      | [] => [[c]]
      | g :: gs => (c :: g) :: gs

/-- `strings.Split(s, ",")`. -/
def splitOnComma (s : String) : List String :=
  (splitOnCommaChars s.data).map String.mk

/-- `strings.TrimSpace`. -/
def trimStr (s : String) : String :=
  String.mk (((s.data.dropWhile Char.isWhitespace).reverse.dropWhile
    Char.isWhitespace).reverse)

/-- `strings.ToLower`. -/
def toLowerStr (s : String) : String :=
  String.mk (s.data.map Char.toLower)

/-- `strings.HasPrefix(s, p)`. -/
def strHasPfx (s p : String) : Bool :=
  List.isPrefixOf p.data s.data

/-- The remainder after a prefix of `n` characters (`s[n:]` /
`strings.CutPrefix`'s second component). -/
def strDropN (s : String) (n : Nat) : String :=
  String.mk (s.data.drop n)

def digitsToNat? (cs : List Char) : Option Nat :=
  if cs ≠ [] ∧ cs.all Char.isDigit then
    some (cs.foldl (fun a c => a * 10 + (c.toNat - 48)) 0)
  else none

/-- `strconv.Atoi`: optional sign, then a non-empty digit string. -/
def atoi (s : String) : Option Int :=
  match s.data with
  | '+' :: rest => (digitsToNat? rest).map Int.ofNat
  | '-' :: rest => (digitsToNat? rest).map (fun n => -(Int.ofNat n))
  | cs => (digitsToNat? cs).map Int.ofNat

/-- `requestWantsFresh`: the request's `Cache-Control` contains a
`no-cache` directive or a `max-age=` directive parsing to a value `≤ 0`. -/
def requestWantsFresh (req : HRequest) : Bool :=
  let cc := req.cacheControl
  if cc == "" then false
  else
    (splitOnComma cc).any fun part =>
      let part := trimStr part
      part == "no-cache" ||
        (if strHasPfx part "max-age=" then
          match atoi (trimStr (strDropN part 8)) with
          | some n => n ≤ 0
          | none => false
         else false)

/-- `responseCacheControl`: fold over every `Cache-Control` value and
every comma-separated part (lower-cased, trimmed); `no-store`/`no-cache`
set `noStore`; a `max-age=`/`s-maxage=` part parsing to a positive value
overwrites `maxAge` (so the last positive directive wins). -/
def responseCacheControl (headerValues : List String) : Bool × Int :=
  headerValues.foldl
    (fun acc cc =>
      (splitOnComma cc).foldl
        (fun (acc : Bool × Int) part =>
          let part := trimStr (toLowerStr part)
          let noStore := acc.1 || part == "no-store" || part == "no-cache"
          let maxAge :=
            if strHasPfx part "max-age=" then
              match atoi (trimStr (strDropN part 8)) with
              | some n => if n > 0 then n else acc.2
              | none => acc.2
            else acc.2
          let maxAge :=
            if strHasPfx part "s-maxage=" then
              match atoi (trimStr (strDropN part 9)) with
              | some n => if n > 0 then n else maxAge
              | none => maxAge
            else maxAge
          (noStore, maxAge))
        acc)
    (false, 0)

/-- `cacheExpires`: a non-positive max-age yields the zero time (no
time-based expiry), otherwise `now + maxAge` seconds. -/
def cacheExpires (maxAgeSeconds : Int) (now : Int) : Option Int :=
  if maxAgeSeconds ≤ 0 then none else some (now + maxAgeSeconds)

def respOfEntry (e : CachedResponse) : HResponse :=
  { status := e.status, cacheControl := e.cacheControl, body := e.body }

def entryOfResp (r : HResponse) (now maxAge : Int) : CachedResponse :=
  { status := r.status, cacheControl := r.cacheControl, body := r.body,
    expires := cacheExpires maxAge now }

/-- One `RoundTrip` call: result, updated cache, and the sequence of
`OnCacheHit` invocations (key, hit flag) the call performs. -/
structure RTResult where
  result : Except String HResponse
  cache : LRUCache
  audits : List (String × Bool)
  deriving Repr

/-- The miss path of `RoundTrip`: forward to the base transport; a
transport error propagates before any audit callback; only a GET with a
2xx status and no response-side `no-store`/`no-cache` directive is
stored.  (The body-read error path is not modelled: bodies are pure
values here.) -/
def missPath (t : LRUCache) (key : String) (req : HRequest) (now : Int)
    (origin : Except String HResponse) : RTResult :=
  match origin with
  | .error e => { result := .error e, cache := t, audits := [] }
  | .ok resp =>
    if req.method ≠ "GET" ∨ resp.status < 200 ∨ 300 ≤ resp.status then
      { result := .ok resp, cache := t, audits := [(key, false)] }
    else
      let parsed := responseCacheControl resp.cacheControl
      if parsed.1 then
        { result := .ok resp, cache := t, audits := [(key, false)] }
      else
        { result := .ok resp,
          cache := lruAdd t key (entryOfResp resp now parsed.2),
          audits := [(key, false)] }

/-- `(*CacheTransport).RoundTrip` (after a successful `ensureCache`):
`key = Method + " " + URL`; a fresh-fetch request skips the lookup; a
valid (unexpired) entry is served from the cache; an expired entry is
removed and the call falls through to the base transport. -/
def roundTrip (t : LRUCache) (req : HRequest) (now : Int)
    (origin : Except String HResponse) : RTResult :=
  let key := req.method ++ " " ++ req.url
  if requestWantsFresh req then missPath t key req now origin
  else
    match lruGet t key with
    | (some entry, t') =>
      match entry.expires with
      | none =>
        { result := .ok (respOfEntry entry), cache := t', audits := [(key, true)] }
      | some e =>
        if now < e then
          { result := .ok (respOfEntry entry), cache := t', audits := [(key, true)] }
        else missPath (lruRemove t' key) key req now origin
    | (none, t') => missPath t' key req now origin

/-! ## Aggregator construction: flattening and descriptors (C4, C5) -/

theorem contrib_of_notInter (s : GScraper) (h : isInterleaved s = false) :
    contrib s = [s] := by
  cases s with
  | leaf d its => rfl
  | noneS => rfl
  | interleaved cs => simp [isInterleaved] at h

theorem contrib_length_pos (s : GScraper) (h : wfScraper s = true) :
    1 ≤ (contrib s).length := by
  cases s with
  | leaf d its => simp [contrib]
  | noneS => simp [contrib]
  | interleaved cs =>
    simp only [wfScraper, Bool.and_eq_true, decide_eq_true_eq] at h
    simp only [contrib]
    omega

theorem flatten1_all_notInter (ls : List GScraper)
    (h : ∀ s ∈ ls, isInterleaved s = false) : flatten1 ls = ls := by
  induction ls with
  | nil => rfl
  | cons s rest ih =>
    simp only [flatten1, contrib_of_notInter s (h s (by simp)),
      ih fun x hx => h x (by simp [hx]), List.cons_append, List.nil_append]

theorem descriptorList_eq_map (ls : List GScraper) :
    descriptorList ls = ls.map descriptorOf := by
  induction ls with
  | nil => rfl
  | cons s rest ih => simp [descriptorList, ih]

theorem Interleaved_congr (l₁ l₂ : List GScraper) (h : flatten1 l₁ = flatten1 l₂) :
    Interleaved l₁ = Interleaved l₂ := by
  unfold Interleaved
  rw [h]

/-- C4: `Interleaved` flattens nested aggregators at build time, so the
nested aggregator `Interleaved(Interleaved(A,B), C)` is the very same
scraper value as the flat `Interleaved(A,B,C)` — in particular it has
the same descriptor and the same merge behaviour (the same emitted
sequence for every request and delivery schedule).  The well-formedness
hypotheses say each argument is a scraper value constructible through
the package's public API (any `*interleavedScraper` has at least two,
non-composite children). -/
theorem interleaved_flatten_equiv (a b c : GScraper)
    (ha : wfScraper a = true) (hb : wfScraper b = true) (hc : wfScraper c = true) :
    Interleaved [Interleaved [a, b], c] = Interleaved [a, b, c] ∧
      descriptorOf (Interleaved [Interleaved [a, b], c]) =
        descriptorOf (Interleaved [a, b, c]) := by
  have _hc := hc
  have hf : flatten1 [a, b] = contrib a ++ contrib b := by
    simp [flatten1]
  have hlen : 2 ≤ (contrib a ++ contrib b).length := by
    have h1 := contrib_length_pos a ha
    have h2 := contrib_length_pos b hb
    rw [List.length_append]
    omega
  obtain ⟨x, y, rest, hxyr⟩ :
      ∃ x y rest, contrib a ++ contrib b = x :: y :: rest := by
    match hab : contrib a ++ contrib b with
    | [] => rw [hab] at hlen; simp at hlen
    | [z] => rw [hab] at hlen; simp at hlen
    | x :: y :: rest => exact ⟨x, y, rest, rfl⟩
  have hinner : Interleaved [a, b] = .interleaved (contrib a ++ contrib b) := by
    unfold Interleaved
    rw [hf, hxyr]
  have h1 : Interleaved [Interleaved [a, b], c] = Interleaved [a, b, c] := by
    apply Interleaved_congr
    rw [hinner]
    simp [flatten1, contrib, List.append_assoc]
  exact ⟨h1, by rw [h1]⟩

/-- C4 witness at three concrete leaf sources. -/
theorem interleaved_flatten_equiv_witness :
    Interleaved [Interleaved [.leaf "A" [], .leaf "B" []], .leaf "C" []] =
      Interleaved [.leaf "A" [], .leaf "B" [], .leaf "C" []] :=
  (interleaved_flatten_equiv (.leaf "A" []) (.leaf "B" []) (.leaf "C" [])
    rfl rfl rfl).1

/-- C5 counterexample: for the two leaf sources with descriptors `"A"`
and `"B"`, the aggregator's descriptor is `"interleaved:A,B"`, not the
bare comma-joined list `"A,B"` of the leaf descriptors the claim
states. -/
theorem interleaved_descriptor_counterexample :
    descriptorOf (Interleaved [.leaf "A" [], .leaf "B" []]) = "interleaved:A,B" ∧
      "interleaved:A,B" ≠ "A,B" ∧
      String.intercalate "," ([GScraper.leaf "A" [], GScraper.leaf "B" []].map
        descriptorOf) = "A,B" := by
  refine ⟨by decide, by decide, by decide⟩

/-- C5 amended: the aggregator's descriptor is the comma-joined list of
the flattened leaf sources' descriptors *prefixed with* the literal
`"interleaved:"`. -/
theorem interleaved_descriptor_amended (ls : List GScraper)
    (hleaf : ∀ s ∈ ls, isInterleaved s = false) (hlen : 2 ≤ ls.length) :
    descriptorOf (Interleaved ls) =
      "interleaved:" ++ String.intercalate "," (ls.map descriptorOf) := by
  have hf : flatten1 ls = ls := flatten1_all_notInter ls hleaf
  match ls, hf, hlen with
  | [], _, hlen => simp at hlen
  | [z], _, hlen => simp at hlen
  | x :: y :: rest, hf, _ =>
    unfold Interleaved
    rw [hf]
    simp only [descriptorOf, descriptorList_eq_map]

/-- C5 amended witness at two concrete leaf sources. -/
theorem interleaved_descriptor_amended_witness :
    descriptorOf (Interleaved [.leaf "A" [], .leaf "B" []]) =
      "interleaved:" ++ String.intercalate ","
        ([GScraper.leaf "A" [], GScraper.leaf "B" []].map descriptorOf) :=
  interleaved_descriptor_amended [.leaf "A" [], .leaf "B" []]
    (by decide) (by decide)

/-! ## Cache initialization (C8) -/

/-- C8 counterexample: initializing either cache with capacity `0`
succeeds — `ensureCache` substitutes the default 1000 before calling
`lru.New`, and `newCachingScraper` clamps to 64; neither fails with any
initialization error. -/
theorem cache_init_counterexample :
    ensureCache 0 = .ok 1000 ∧
      (newCachingScraper "d" (fun _ => []) 0 300).cache.cap = 64 :=
  ⟨rfl, rfl⟩

/-- C8 amended: a non-positive capacity is not an error: the result
cache silently substitutes its default capacity 64 and the transport
cache its default 1000, and initialization always succeeds (the code
has no `CacheInitError`; the only fallible call, `lru.New`, is always
given a positive size). -/
theorem cache_init_defaults_amended (m : Int) (hm : m ≤ 0) (d : String)
    (f : ListShowtimesRequest → List ShowtimeListItem) (ttl : Int) :
    ensureCache m = .ok 1000 ∧ (newCachingScraper d f m ttl).cache.cap = 64 := by
  constructor
  · unfold ensureCache lruNew
    rw [if_pos hm]
    norm_num
  · unfold newCachingScraper cachingScraperCapacity
    rw [if_pos hm]
    rfl

/-- C8 amended witness at capacity 0. -/
theorem cache_init_defaults_amended_witness :
    ensureCache 0 = .ok 1000 ∧
      (newCachingScraper "d" (fun _ => []) 0 300).cache.cap = 64 :=
  cache_init_defaults_amended 0 (by decide) "d" (fun _ => []) 300

/-! ## Result cache (C3) -/

theorem take_of_one_le {α : Type} (x : α) (n : Nat) (h : 1 ≤ n) :
    [x].take n = [x] := by
  match n, h with
  | n + 1, _ => simp

/-- C3: wrapping a source with the result cache and issuing the same
request twice within the TTL (or with no expiration configured) returns
the wrapped source's item list both times — byte-for-byte in the order
the source produced it — while fetching the wrapped source exactly once
over the two calls. -/
theorem resultCache_idempotent_single_fetch (d : String)
    (inner : ListShowtimesRequest → List ShowtimeListItem)
    (maxEntries ttl : Int) (req : ListShowtimesRequest) (t1 t2 : Int)
    (httl : ttl ≤ 0 ∨ t2 < t1 + ttl) :
    (scrapeCached (newCachingScraper d inner maxEntries ttl) t1 req).1 = inner req ∧
      (scrapeCached
        (scrapeCached (newCachingScraper d inner maxEntries ttl) t1 req).2.1
        t2 req).1 = inner req ∧
      (scrapeCached (newCachingScraper d inner maxEntries ttl) t1 req).2.2 +
        (scrapeCached
          (scrapeCached (newCachingScraper d inner maxEntries ttl) t1 req).2.1
          t2 req).2.2 = 1 := by
  have hcap : 1 ≤ (cachingScraperCapacity maxEntries).toNat := by
    unfold cachingScraperCapacity
    split
    · decide
    · next h => omega
  have h1 : scrapeCached (newCachingScraper d inner maxEntries ttl) t1 req =
      (inner req,
       { descriptor := d, inner := inner,
         cache := { entries := [(d ++ ":" ++ cacheKey req, ⟨inner req, t1⟩)],
                    cap := (cachingScraperCapacity maxEntries).toNat,
                    ttl := ttl } },
       1) := by
    unfold scrapeCached newCachingScraper expGet expAdd
    simp only [List.find?_nil, List.filter_nil]
    rw [take_of_one_le _ _ hcap]
  have h2 : scrapeCached
      { descriptor := d, inner := inner,
        cache := { entries := [(d ++ ":" ++ cacheKey req, ⟨inner req, t1⟩)],
                   cap := (cachingScraperCapacity maxEntries).toNat,
                   ttl := ttl } } t2 req =
      (inner req,
       { descriptor := d, inner := inner,
         cache := { entries := [(d ++ ":" ++ cacheKey req, ⟨inner req, t1⟩)],
                    cap := (cachingScraperCapacity maxEntries).toNat,
                    ttl := ttl } },
       0) := by
    unfold scrapeCached expGet
    simp only [List.find?_cons, beq_self_eq_true, List.filter_cons,
      bne_self_eq_false, List.filter_nil]
    rw [if_pos httl]
    simp
  rw [h1, h2]
  exact ⟨rfl, rfl, rfl⟩

/-- C3 witness: a concrete two-item source, capacity 64, TTL 300,
queried at times 0 and 200. -/
theorem resultCache_idempotent_single_fetch_witness :
    (scrapeCached (newCachingScraper "hollywoodtheatre"
        (fun _ => [⟨⟨"x1", "X", 1900⟩⟩, ⟨⟨"x2", "Y", 2100⟩⟩]) 64 300) 0
        { after := 0, before := 0, limit := 0, anchor := "" }).1 =
      [⟨⟨"x1", "X", 1900⟩⟩, ⟨⟨"x2", "Y", 2100⟩⟩] ∧
    (scrapeCached
      (scrapeCached (newCachingScraper "hollywoodtheatre"
        (fun _ => [⟨⟨"x1", "X", 1900⟩⟩, ⟨⟨"x2", "Y", 2100⟩⟩]) 64 300) 0
        { after := 0, before := 0, limit := 0, anchor := "" }).2.1 200
      { after := 0, before := 0, limit := 0, anchor := "" }).1 =
      [⟨⟨"x1", "X", 1900⟩⟩, ⟨⟨"x2", "Y", 2100⟩⟩] ∧
    (scrapeCached (newCachingScraper "hollywoodtheatre"
        (fun _ => [⟨⟨"x1", "X", 1900⟩⟩, ⟨⟨"x2", "Y", 2100⟩⟩]) 64 300) 0
        { after := 0, before := 0, limit := 0, anchor := "" }).2.2 +
      (scrapeCached
        (scrapeCached (newCachingScraper "hollywoodtheatre"
          (fun _ => [⟨⟨"x1", "X", 1900⟩⟩, ⟨⟨"x2", "Y", 2100⟩⟩]) 64 300) 0
          { after := 0, before := 0, limit := 0, anchor := "" }).2.1 200
        { after := 0, before := 0, limit := 0, anchor := "" }).2.2 = 1 :=
  resultCache_idempotent_single_fetch "hollywoodtheatre"
    (fun _ => [⟨⟨"x1", "X", 1900⟩⟩, ⟨⟨"x2", "Y", 2100⟩⟩]) 64 300
    { after := 0, before := 0, limit := 0, anchor := "" } 0 200
    (Or.inr (by norm_num))

/-! ## Transport cache (C6, C7, C9) -/

theorem lruLookup_add_self (t : LRUCache) (k : String) (v : CachedResponse)
    (h : 1 ≤ t.cap) : lruLookup (lruAdd t k v) k = some v := by
  unfold lruLookup lruAdd
  obtain ⟨n, hn⟩ : ∃ n, t.cap = n + 1 := ⟨t.cap - 1, by omega⟩
  rw [hn]
  simp [List.take_succ_cons, List.find?_cons]

theorem missPath_result (t : LRUCache) (key : String) (req : HRequest)
    (now : Int) (origin : Except String HResponse) :
    (missPath t key req now origin).result = origin := by
  cases origin with
  | error e => rfl
  | ok resp =>
    simp only [missPath]
    by_cases h1 : req.method ≠ "GET" ∨ resp.status < 200 ∨ 300 ≤ resp.status
    · rw [if_pos h1]
    · rw [if_neg h1]
      by_cases h2 : (responseCacheControl resp.cacheControl).1 = true
      · simp only [h2, if_true]
      · simp only [Bool.not_eq_true] at h2
        simp only [h2, Bool.false_eq_true, if_false]

theorem missPath_audits_error (t : LRUCache) (key : String) (req : HRequest)
    (now : Int) (e : String) :
    (missPath t key req now (.error e)).audits = [] := rfl

theorem missPath_audits_ok (t : LRUCache) (key : String) (req : HRequest)
    (now : Int) (resp : HResponse) :
    (missPath t key req now (.ok resp)).audits = [(key, false)] := by
  simp only [missPath]
  by_cases h1 : req.method ≠ "GET" ∨ resp.status < 200 ∨ 300 ≤ resp.status
  · rw [if_pos h1]
  · rw [if_neg h1]
    by_cases h2 : (responseCacheControl resp.cacheControl).1 = true
    · simp only [h2, if_true]
    · simp only [Bool.not_eq_true] at h2
      simp only [h2, Bool.false_eq_true, if_false]

theorem missPath_stores (t : LRUCache) (key : String) (req : HRequest)
    (now : Int) (resp : HResponse) (hm : req.method = "GET")
    (hlo : 200 ≤ resp.status) (hhi : resp.status < 300)
    (hns : (responseCacheControl resp.cacheControl).1 = false)
    (hcap : 1 ≤ t.cap) :
    lruLookup (missPath t key req now (.ok resp)).cache key =
      some (entryOfResp resp now (responseCacheControl resp.cacheControl).2) := by
  simp only [missPath]
  rw [if_neg (by push_neg; exact ⟨hm, hlo, hhi⟩)]
  simp only [hns, Bool.false_eq_true, if_false]
  exact lruLookup_add_self t key _ hcap

/-- The first component of `Cache.Get` is exactly what `lruLookup`
reports. -/
theorem lruGet_fst (t : LRUCache) (k : String) :
    (lruGet t k).1 = lruLookup t k := by
  unfold lruGet lruLookup
  match h : t.entries.find? (fun p => p.1 == k) with
  | some (a, b) => rw [h]; rfl
  | none => rw [h]; rfl

/-- C7: a request carrying a fresh-fetch directive (`no-cache`, or a
`max-age` parsing non-positive) always receives the origin's answer,
whatever the cache holds, and — when the origin's response is an
eligible GET 2xx without a blocking directive — the fresh response is
still stored afterwards. -/
theorem transport_bypass_fresh (t : LRUCache) (req : HRequest) (now : Int)
    (origin : Except String HResponse)
    (hfresh : requestWantsFresh req = true) :
    (roundTrip t req now origin).result = origin ∧
      (∀ resp, origin = .ok resp → req.method = "GET" →
        200 ≤ resp.status → resp.status < 300 →
        (responseCacheControl resp.cacheControl).1 = false → 1 ≤ t.cap →
        lruLookup (roundTrip t req now origin).cache
            (req.method ++ " " ++ req.url) =
          some (entryOfResp resp now
            (responseCacheControl resp.cacheControl).2)) := by
  unfold roundTrip
  simp only [hfresh, if_true]
  refine ⟨missPath_result _ _ _ _ _, ?_⟩
  intro resp horigin hm hlo hhi hns hcap
  subst horigin
  exact missPath_stores t _ req now resp hm hlo hhi hns hcap

/-- C7 witness: a `no-cache` request bypasses a valid (never-expiring)
cached entry, reads from the origin, and re-stores the fresh response. -/
theorem transport_bypass_fresh_witness :
    (roundTrip ⟨[("GET u", ⟨200, [], "old", none⟩)], 10⟩
        ⟨"GET", "u", "no-cache"⟩ 5 (.ok ⟨200, [], "fresh"⟩)).result =
      .ok ⟨200, [], "fresh"⟩ ∧
    lruLookup (roundTrip ⟨[("GET u", ⟨200, [], "old", none⟩)], 10⟩
        ⟨"GET", "u", "no-cache"⟩ 5 (.ok ⟨200, [], "fresh"⟩)).cache
        "GET u" =
      some (entryOfResp ⟨200, [], "fresh"⟩ 5
        (responseCacheControl ([] : List String)).2) :=
  ⟨(transport_bypass_fresh ⟨[("GET u", ⟨200, [], "old", none⟩)], 10⟩
      ⟨"GET", "u", "no-cache"⟩ 5 (.ok ⟨200, [], "fresh"⟩) (by decide)).1,
   (transport_bypass_fresh ⟨[("GET u", ⟨200, [], "old", none⟩)], 10⟩
      ⟨"GET", "u", "no-cache"⟩ 5 (.ok ⟨200, [], "fresh"⟩) (by decide)).2
     ⟨200, [], "fresh"⟩ rfl rfl (by decide) (by decide) (by decide)
     (by decide)⟩

/-- Serving a hit: a stored entry whose `Expires` is the zero time is
served from the cache at every `now` (it never expires by time). -/
theorem roundTrip_hit_no_expiry (t : LRUCache) (req : HRequest) (now : Int)
    (origin : Except String HResponse) (entry : CachedResponse)
    (hl : lruLookup t (req.method ++ " " ++ req.url) = some entry)
    (hexp : entry.expires = none)
    (hfresh : requestWantsFresh req = false) :
    (roundTrip t req now origin).result = .ok (respOfEntry entry) := by
  obtain ⟨a, hfind⟩ : ∃ a,
      t.entries.find? (fun p => p.1 == (req.method ++ " " ++ req.url)) =
        some (a, entry) := by
    unfold lruLookup at hl
    match h : t.entries.find?
        (fun p => p.1 == (req.method ++ " " ++ req.url)) with
    | some (a, b) =>
      rw [h] at hl
      have hb : b = entry := by simpa using hl
      exact ⟨a, by rw [h, hb]⟩
    | none => rw [h] at hl; simp at hl
  unfold roundTrip lruGet
  simp only [hfresh, Bool.false_eq_true, if_false, hfind, hexp]

/-- C6 counterexample: with both directives present in the order
`s-maxage=600, max-age=300`, the parsed max-age is 300 — the textually
last positive directive wins, not the shared-cache directive. -/
theorem smaxage_order_counterexample :
    responseCacheControl ["s-maxage=600, max-age=300"] = (false, 300) ∧
      (300 : Int) ≠ 600 := by
  refine ⟨by decide, by decide⟩

/-- C6 amended: storing a GET 2xx response, a positive parsed max-age
sets the expiry `now + maxAge` and a non-positive one the zero time; the
parse lets the textually *last* positive `max-age`/`s-maxage` directive
win (so `s-maxage` is preferred exactly when it appears after
`max-age`, as in the conventional order, and loses otherwise); an entry
stored without a positive directive never expires by time — it is served
from the cache at every later instant and can disappear only by LRU
eviction. -/
theorem transport_expiry_amended :
    (∀ now m : Int, 0 < m → cacheExpires m now = some (now + m)) ∧
    (∀ now m : Int, m ≤ 0 → cacheExpires m now = none) ∧
    (responseCacheControl ["max-age=300, s-maxage=600"] = (false, 600) ∧
      responseCacheControl ["s-maxage=600, max-age=300"] = (false, 300) ∧
      responseCacheControl ["max-age=300"] = (false, 300) ∧
      responseCacheControl ["no-transform"] = (false, 0)) ∧
    (∀ (t : LRUCache) (req : HRequest) (now : Int)
        (origin : Except String HResponse) (entry : CachedResponse),
      lruLookup t (req.method ++ " " ++ req.url) = some entry →
      entry.expires = none → requestWantsFresh req = false →
      (roundTrip t req now origin).result = .ok (respOfEntry entry)) ∧
    (∀ (t : LRUCache) (req : HRequest) (now : Int) (resp : HResponse),
      requestWantsFresh req = false →
      lruLookup t (req.method ++ " " ++ req.url) = none →
      req.method = "GET" → 200 ≤ resp.status → resp.status < 300 →
      (responseCacheControl resp.cacheControl).1 = false → 1 ≤ t.cap →
      lruLookup (roundTrip t req now (.ok resp)).cache
          (req.method ++ " " ++ req.url) =
        some (entryOfResp resp now
          (responseCacheControl resp.cacheControl).2)) := by
  refine ⟨?_, ?_, ⟨by decide, by decide, by decide, by decide⟩, ?_, ?_⟩
  · intro now m hm
    unfold cacheExpires
    rw [if_neg (by omega)]
  · intro now m hm
    unfold cacheExpires
    rw [if_pos hm]
  · exact fun t req now origin entry hl hexp hfresh =>
      roundTrip_hit_no_expiry t req now origin entry hl hexp hfresh
  · intro t req now resp hfresh hl hm hlo hhi hns hcap
    have hfind : t.entries.find?
        (fun p => p.1 == (req.method ++ " " ++ req.url)) = none := by
      unfold lruLookup at hl
      match h : t.entries.find?
          (fun p => p.1 == (req.method ++ " " ++ req.url)) with
      | some (a, b) => rw [h] at hl; simp at hl
      | none => exact h
    unfold roundTrip lruGet
    simp only [hfresh, Bool.false_eq_true, if_false, hfind]
    exact missPath_stores t _ req now resp hm hlo hhi hns hcap

/-- C6 amended witness: a positive max-age produces a concrete expiry;
a never-expiring concrete entry is served arbitrarily far in the
future. -/
theorem transport_expiry_amended_witness :
    cacheExpires 600 100 = some 700 ∧
      (roundTrip ⟨[("GET u", ⟨200, [], "body", none⟩)], 10⟩
          ⟨"GET", "u", ""⟩ 999999999 (.error "unused")).result =
        .ok (respOfEntry ⟨200, [], "body", none⟩) :=
  ⟨transport_expiry_amended.1 100 600 (by decide),
   transport_expiry_amended.2.2.2.1 ⟨[("GET u", ⟨200, [], "body", none⟩)], 10⟩
     ⟨"GET", "u", ""⟩ 999999999 (.error "unused") ⟨200, [], "body", none⟩
     (by decide) rfl (by decide)⟩

/-- C9 counterexample: when the base transport fails, `RoundTrip`
returns the error without invoking the audit callback at all — not
exactly once as the claim states. -/
theorem audit_callback_counterexample :
    ((roundTrip ⟨[], 10⟩ ⟨"GET", "u", ""⟩ 0
      (.error "connection refused")).audits).length ≠ 1 := by
  decide

theorem missPath_audit_claims (t : LRUCache) (key : String) (req : HRequest)
    (now : Int) (origin : Except String HResponse) :
    (∀ r, (missPath t key req now origin).result = .ok r →
      (missPath t key req now origin).audits = [(key, false)]) ∧
    (∀ e, (missPath t key req now origin).result = .error e →
      (missPath t key req now origin).audits = []) ∧
    (key, true) ∉ (missPath t key req now origin).audits := by
  cases origin with
  | error e =>
    refine ⟨?_, ?_, ?_⟩
    · intro r hr
      rw [missPath_result] at hr
      cases hr
    · intro e' _
      exact missPath_audits_error t key req now e
    · rw [missPath_audits_error]
      simp
  | ok resp =>
    refine ⟨?_, ?_, ?_⟩
    · intro r _
      exact missPath_audits_ok t key req now resp
    · intro e' he
      rw [missPath_result] at he
      cases he
    · rw [missPath_audits_ok]
      simp

/-- C9 amended: the audit callback is invoked exactly once — with the
cache key and whether the call was served from the cache — on every
`RoundTrip` call that returns a response; a call that fails with a
transport error returns before the callback, invoking it zero times.  A
`true` report moreover really means the response came from a stored
entry. -/
theorem roundTrip_audit_amended (t : LRUCache) (req : HRequest) (now : Int)
    (origin : Except String HResponse) :
    (∀ r, (roundTrip t req now origin).result = .ok r →
      ∃ b, (roundTrip t req now origin).audits =
        [(req.method ++ " " ++ req.url, b)]) ∧
    (∀ e, (roundTrip t req now origin).result = .error e →
      (roundTrip t req now origin).audits = []) ∧
    ((req.method ++ " " ++ req.url, true) ∈ (roundTrip t req now origin).audits →
      ∃ entry, lruLookup t (req.method ++ " " ++ req.url) = some entry ∧
        (roundTrip t req now origin).result = .ok (respOfEntry entry)) := by
  by_cases hfresh : requestWantsFresh req = true
  · have hrt : roundTrip t req now origin =
        missPath t (req.method ++ " " ++ req.url) req now origin := by
      unfold roundTrip
      rw [if_pos hfresh]
    obtain ⟨h1, h2, h3⟩ :=
      missPath_audit_claims t (req.method ++ " " ++ req.url) req now origin
    rw [hrt]
    exact ⟨fun r hr => ⟨false, h1 r hr⟩, h2, fun hmem => absurd hmem h3⟩
  · simp only [Bool.not_eq_true] at hfresh
    match hfind : t.entries.find?
        (fun p => p.1 == (req.method ++ " " ++ req.url)) with
    | none =>
      have hrt : roundTrip t req now origin =
          missPath t (req.method ++ " " ++ req.url) req now origin := by
        unfold roundTrip lruGet
        simp only [hfresh, Bool.false_eq_true, if_false, hfind]
      obtain ⟨h1, h2, h3⟩ :=
        missPath_audit_claims t (req.method ++ " " ++ req.url) req now origin
      rw [hrt]
      exact ⟨fun r hr => ⟨false, h1 r hr⟩, h2, fun hmem => absurd hmem h3⟩
    | some (a, entry) =>
      have hlook : lruLookup t (req.method ++ " " ++ req.url) = some entry := by
        unfold lruLookup
        rw [hfind]
        rfl
      match hexp : entry.expires with
      | none =>
        have hrt : roundTrip t req now origin =
            { result := .ok (respOfEntry entry),
              cache := (lruGet t (req.method ++ " " ++ req.url)).2,
              audits := [(req.method ++ " " ++ req.url, true)] } := by
          unfold roundTrip lruGet
          simp only [hfresh, Bool.false_eq_true, if_false, hfind, hexp]
        rw [hrt]
        refine ⟨fun r _ => ⟨true, rfl⟩, ?_, fun _ => ⟨entry, hlook, rfl⟩⟩
        intro e he
        simp at he
      | some ex =>
        by_cases hnow : now < ex
        · have hrt : roundTrip t req now origin =
              { result := .ok (respOfEntry entry),
                cache := (lruGet t (req.method ++ " " ++ req.url)).2,
                audits := [(req.method ++ " " ++ req.url, true)] } := by
            unfold roundTrip lruGet
            simp only [hfresh, Bool.false_eq_true, if_false, hfind, hexp]
            rw [if_pos hnow]
          rw [hrt]
          refine ⟨fun r _ => ⟨true, rfl⟩, ?_, fun _ => ⟨entry, hlook, rfl⟩⟩
          intro e he
          simp at he
        · have hrt : roundTrip t req now origin =
              missPath (lruRemove (lruGet t (req.method ++ " " ++ req.url)).2
                  (req.method ++ " " ++ req.url))
                (req.method ++ " " ++ req.url) req now origin := by
            unfold roundTrip lruGet
            simp only [hfresh, Bool.false_eq_true, if_false, hfind, hexp]
            rw [if_neg hnow]
          obtain ⟨h1, h2, h3⟩ := missPath_audit_claims
            (lruRemove (lruGet t (req.method ++ " " ++ req.url)).2
              (req.method ++ " " ++ req.url))
            (req.method ++ " " ++ req.url) req now origin
          rw [hrt]
          exact ⟨fun r hr => ⟨false, h1 r hr⟩, h2, fun hmem => absurd hmem h3⟩

/-- C9 amended witness: a served hit reports `(key, true)` once; the
same key's lookup confirms the report. -/
theorem roundTrip_audit_amended_witness :
    (roundTrip ⟨[("GET u", ⟨200, [], "body", none⟩)], 10⟩ ⟨"GET", "u", ""⟩ 0
      (.error "unused")).audits = [("GET u", true)] →
    ∃ entry, lruLookup ⟨[("GET u", ⟨200, [], "body", none⟩)], 10⟩ "GET u" =
        some entry ∧
      (roundTrip ⟨[("GET u", ⟨200, [], "body", none⟩)], 10⟩ ⟨"GET", "u", ""⟩ 0
        (.error "unused")).result = .ok (respOfEntry entry) := by
  intro hmem
  exact (roundTrip_audit_amended ⟨[("GET u", ⟨200, [], "body", none⟩)], 10⟩
    ⟨"GET", "u", ""⟩ 0 (.error "unused")).2.2 (by rw [hmem]; simp)

/-! ## Limit enforcement in the merge loop (C2)

Every emission requires `sent < limit` and increments `sent`; no step of
the loop decreases `sent`, so the whole run emits at most `limit` items
whatever the delivery schedule contains. -/

theorem refill_sent (st : MergeState) (j : Nat) :
    (refill st j).sent = st.sent := by
  unfold refill
  split <;> rfl

theorem popOne_sent (st : MergeState) :
    (popOne st).2.sent = st.sent := by
  unfold popOne
  exact refill_sent _ _

theorem applySlot_sent (st : MergeState) (s : Slot) :
    (applySlot st s).sent = st.sent := by
  unfold applySlot
  rcases s with ⟨_ | it, idx⟩
  · rfl
  · simp only
    split <;> rfl

theorem popPhaseGo_sent (limit fuel : Nat) (st : MergeState) :
    (popPhaseGo limit fuel st).2.sent =
      st.sent + (popPhaseGo limit fuel st).1.length ∧
      (popPhaseGo limit fuel st).2.sent ≤ max st.sent limit := by
  induction fuel generalizing st with
  | zero => exact ⟨rfl, by simp [popPhaseGo]⟩
  | succ fuel ih =>
    unfold popPhaseGo
    by_cases hc : (canPop st && !st.hp.isEmpty && decide (st.sent < limit)) = true
    · rw [if_pos hc]
      have hlt : st.sent < limit := by
        simp only [Bool.and_eq_true, decide_eq_true_eq] at hc
        exact hc.2
      match hpop : popOne st with
      | (none, st') =>
        have hs : st'.sent = st.sent := by
          have h0 := popOne_sent st
          rw [hpop] at h0
          exact h0
        obtain ⟨ih1, ih2⟩ := ih st'
        refine ⟨by rw [ih1, hs], ?_⟩
        calc (popPhaseGo limit fuel st').2.sent ≤ max st'.sent limit := ih2
          _ ≤ max st.sent limit := by rw [hs]
      | (some it, st') =>
        have hs : st'.sent = st.sent := by
          have h0 := popOne_sent st
          rw [hpop] at h0
          exact h0
        obtain ⟨ih1, ih2⟩ := ih { st' with sent := st'.sent + 1 }
        simp only [List.length_cons]
        constructor
        · rw [ih1]
          simp only [hs]
          omega
        · have hmx : max (st'.sent + 1) limit = limit := by omega
          rw [hmx] at ih2
          omega
    · rw [if_neg hc]
      exact ⟨by simp, by simp⟩

theorem drainGo_length (limit fuel : Nat) (st : MergeState) :
    st.sent + (drainGo limit fuel st).length ≤ max st.sent limit := by
  induction fuel generalizing st with
  | zero => simp [drainGo]
  | succ fuel ih =>
    unfold drainGo
    by_cases hc : (!st.hp.isEmpty && decide (st.sent < limit)) = true
    · rw [if_pos hc]
      have hlt : st.sent < limit := by
        simp only [Bool.and_eq_true, decide_eq_true_eq] at hc
        exact hc.2
      match hpop : popOne st with
      | (none, st') =>
        have hs : st'.sent = st.sent := by
          have h0 := popOne_sent st
          rw [hpop] at h0
          exact h0
        have h1 := ih st'
        rw [hs] at h1
        show st.sent + (drainGo limit fuel st').length ≤ max st.sent limit
        omega
      | (some it, st') =>
        have hs : st'.sent = st.sent := by
          have h0 := popOne_sent st
          rw [hpop] at h0
          exact h0
        have h1 := ih { st' with sent := st'.sent + 1 }
        show st.sent +
          (it :: drainGo limit fuel { st' with sent := st'.sent + 1 }).length ≤
            max st.sent limit
        simp only [List.length_cons] at h1 ⊢
        omega
    · rw [if_neg hc]
      simp

theorem runLoop_length (limit : Nat) (msgs : List Slot) (st : MergeState) :
    st.sent + (runLoop limit msgs st).length ≤ max st.sent limit := by
  induction msgs generalizing st with
  | nil =>
    unfold runLoop popPhase drain
    obtain ⟨h1, h2⟩ := popPhaseGo_sent limit (popMeasure st) st
    have h3 := drainGo_length limit
      (popMeasure (popPhaseGo limit (popMeasure st) st).2)
      (popPhaseGo limit (popMeasure st) st).2
    simp only [List.length_append]
    omega
  | cons slot rest ih =>
    unfold runLoop popPhase
    obtain ⟨h1, h2⟩ := popPhaseGo_sent limit (popMeasure st) st
    have h3 := ih (applySlot (popPhaseGo limit (popMeasure st) st).2 slot)
    rw [applySlot_sent] at h3
    simp only [List.length_append]
    omega

/-- C2: with a positive requested limit, the merge emits at most `limit`
items whatever the delivery schedule (hence whatever the sources)
contains; and merging the two 2-item sources A=[19:00, 21:00],
B=[20:00, 22:00] with limit 1 yields exactly the globally earliest item
(A's 19:00) under every delivery order of the two workers. -/
theorem interleaved_limit_enforced (n : Nat) (reqLimit : Int)
    (hpos : 0 < reqLimit) (msgs : List Slot) :
    (interleavedRun n reqLimit msgs).length ≤ reqLimit.toNat ∧
      (∀ ms ∈ interleavings
          (slotStream 0 [⟨⟨"a1", "A first", 1900⟩⟩, ⟨⟨"a2", "A second", 2100⟩⟩])
          (slotStream 1 [⟨⟨"b1", "B mid", 2000⟩⟩, ⟨⟨"b2", "B last", 2200⟩⟩]),
        interleavedRun 2 1 ms = [⟨⟨"a1", "A first", 1900⟩⟩]) := by
  constructor
  · have h := runLoop_length (effLimit reqLimit) msgs (initState n)
    have hinit : (initState n).sent = 0 := rfl
    have heff : effLimit reqLimit = reqLimit.toNat := by
      unfold effLimit
      rw [if_neg (by omega)]
    unfold interleavedRun
    rw [hinit] at h
    rw [heff] at h
    rw [heff]
    omega
  · decide

/-- C2 witness: limit 1 at a concrete schedule (source A's messages
first, then source B's). -/
theorem interleaved_limit_enforced_witness :
    (interleavedRun 2 1
        (slotStream 0 [⟨⟨"a1", "A first", 1900⟩⟩, ⟨⟨"a2", "A second", 2100⟩⟩] ++
         slotStream 1 [⟨⟨"b1", "B mid", 2000⟩⟩, ⟨⟨"b2", "B last", 2200⟩⟩])).length ≤
      (1 : Int).toNat :=
  (interleaved_limit_enforced 2 1 (by decide)
    (slotStream 0 [⟨⟨"a1", "A first", 1900⟩⟩, ⟨⟨"a2", "A second", 2100⟩⟩] ++
     slotStream 1 [⟨⟨"b1", "B mid", 2000⟩⟩, ⟨⟨"b2", "B last", 2200⟩⟩])).1

/-! ## Heap verification, part 1: the sift procedures permute the index
array (C1 groundwork) -/

theorem getD_set_self {α : Type} (l : List α) (i : Nat) (a d : α)
    (h : i < l.length) : (l.set i a).getD i d = a := by
  simp [List.getD_eq_getElem?_getD, List.getElem?_set_self h]

theorem getD_set_ne {α : Type} (l : List α) (i c : Nat) (a d : α)
    (h : i ≠ c) : (l.set i a).getD c d = l.getD c d := by
  simp [List.getD_eq_getElem?_getD, List.getElem?_set_ne h]

theorem lswap_length (l : List Nat) (i j : Nat) :
    (lswap l i j).length = l.length := by
  simp [lswap]

theorem lswap_getD_left (l : List Nat) (i j : Nat) (hi : i < l.length)
    (hne : i ≠ j) : (lswap l i j).getD i 0 = l.getD j 0 := by
  unfold lswap
  rw [getD_set_ne _ _ _ _ _ (Ne.symm hne), getD_set_self _ _ _ _ hi]

theorem lswap_getD_right (l : List Nat) (i j : Nat) (hj : j < l.length) :
    (lswap l i j).getD j 0 = l.getD i 0 := by
  unfold lswap
  rw [getD_set_self]
  simpa using hj

theorem lswap_getD_other (l : List Nat) (i j c : Nat) (hci : c ≠ i)
    (hcj : c ≠ j) : (lswap l i j).getD c 0 = l.getD c 0 := by
  unfold lswap
  rw [getD_set_ne _ _ _ _ _ (Ne.symm hcj), getD_set_ne _ _ _ _ _ (Ne.symm hci)]

theorem count_set_nat (l : List Nat) (i a y : Nat) (h : i < l.length) :
    (l.set i a).count y + (if l.getD i 0 = y then 1 else 0) =
      l.count y + (if a = y then 1 else 0) := by
  induction l generalizing i with
  | nil => simp at h
  | cons x xs ih =>
    cases i with
    | zero =>
      simp only [List.set_cons_zero, List.count_cons, List.getD_cons_zero]
      split_ifs <;> simp_all
    | succ n =>
      have hn : n < xs.length := by simpa using h
      have hx := ih n hn
      simp only [List.set_cons_succ, List.count_cons, List.getD_cons_succ]
      split_ifs at hx ⊢ <;> omega

theorem lswap_perm (l : List Nat) (i j : Nat) (hi : i < l.length)
    (hj : j < l.length) : List.Perm (lswap l i j) l := by
  rcases eq_or_ne i j with rfl | hne
  · unfold lswap
    rw [List.set_set]
    apply List.perm_iff_count.mpr
    intro y
    have hc := count_set_nat l i (l.getD i 0) y hi
    omega
  · apply List.perm_iff_count.mpr
    intro y
    have hc1 := count_set_nat l i (l.getD j 0) y hi
    have hc2 := count_set_nat (l.set i (l.getD j 0)) j (l.getD i 0) y
      (by simpa using hj)
    rw [getD_set_ne _ _ _ _ _ hne] at hc2
    unfold lswap
    omega

theorem heapUpGo_perm (key : Nat → Int) (fuel : Nat) :
    ∀ (l : List Nat) (j : Nat), j ≤ fuel → j < l.length →
      List.Perm (heapUpGo key fuel l j) l := by
  induction fuel with
  | zero => intro l j _ _; exact List.Perm.refl _
  | succ fuel ih =>
    intro l j hfuel hj
    unfold heapUpGo
    by_cases h0 : j = 0
    · rw [if_pos h0]
    · rw [if_neg h0]
      by_cases hlt : key (l.getD j 0) < key (l.getD ((j - 1) / 2) 0)
      · rw [if_pos hlt]
        refine (ih (lswap l ((j - 1) / 2) j) ((j - 1) / 2) (by omega) ?_).trans
          (lswap_perm l ((j - 1) / 2) j (by omega) hj)
        rw [lswap_length]
        omega
      · rw [if_neg hlt]

theorem heapDownGo_perm (key : Nat → Int) (fuel : Nat) :
    ∀ (l : List Nat) (i m : Nat), m ≤ l.length →
      List.Perm (heapDownGo key fuel l i m) l := by
  induction fuel with
  | zero => intro l i m _; exact List.Perm.refl _
  | succ fuel ih =>
    intro l i m hm
    unfold heapDownGo
    by_cases hc : 2 * i + 1 < m
    · rw [if_pos hc]
      set j := if 2 * i + 2 < m ∧ key (l.getD (2 * i + 2) 0) < key (l.getD (2 * i + 1) 0)
               then 2 * i + 2 else 2 * i + 1 with hjdef
      have hjm : j < m ∧ i < j := by
        rw [hjdef]
        split <;> omega
      by_cases hlt : key (l.getD j 0) < key (l.getD i 0)
      · rw [if_pos hlt]
        refine (ih (lswap l i j) j m (by rw [lswap_length]; exact hm)).trans
          (lswap_perm l i j (by omega) (by omega))
      · rw [if_neg hlt]
    · rw [if_neg hc]

theorem heapPush_perm (key : Nat → Int) (l : List Nat) (x : Nat) :
    List.Perm (heapPush key l x) (x :: l) := by
  unfold heapPush heapUp
  refine (heapUpGo_perm key l.length (l ++ [x]) l.length (le_refl _)
    (by simp)).trans ?_
  exact List.perm_append_singleton x l

theorem take_length_sub_one_append (l : List Nat) (hne : l ≠ []) :
    l.take (l.length - 1) ++ [l.getD (l.length - 1) 0] = l := by
  induction l with
  | nil => exact absurd rfl hne
  | cons x xs ih =>
    cases hxs : xs with
    | nil => simp
    | cons y ys =>
      rw [← hxs]
      have hxsne : xs ≠ [] := by rw [hxs]; exact List.cons_ne_nil y ys
      have hlen : (x :: xs).length - 1 = (xs.length - 1) + 1 := by
        rw [hxs]; simp
      rw [hlen, List.take_succ_cons, List.getD_cons_succ, List.cons_append,
        ih hxsne]

theorem heapPop_snd_perm (key : Nat → Int) (l : List Nat) (hne : l ≠ []) :
    List.Perm (heapPop key l).2 l.tail := by
  match l, hne with
  | x :: xs, _ =>
    show List.Perm (heapDown key (((x :: xs).take ((x :: xs).length - 1)).set 0
      ((x :: xs).getD ((x :: xs).length - 1) 0)) 0 ((x :: xs).length - 1)) xs
    cases hxs : xs with
    | nil => simp [heapDown, heapDownGo]
    | cons y ys =>
      rw [← hxs]
      have hxsne : xs ≠ [] := by rw [hxs]; exact List.cons_ne_nil y ys
      have hlen : (x :: xs).length - 1 = (xs.length - 1) + 1 := by
        rw [hxs]; simp
      have hform : ((x :: xs).take ((x :: xs).length - 1)).set 0
          ((x :: xs).getD ((x :: xs).length - 1) 0) =
          xs.getD (xs.length - 1) 0 :: xs.take (xs.length - 1) := by
        rw [hlen, List.take_succ_cons, List.getD_cons_succ, List.set_cons_zero]
      rw [hform]
      have hperm1 : List.Perm
          (xs.getD (xs.length - 1) 0 :: xs.take (xs.length - 1)) xs := by
        refine ((List.perm_append_singleton _ _).symm).trans ?_
        rw [take_length_sub_one_append xs hxsne]
      have hlen2 : (x :: xs).length - 1 ≤
          (xs.getD (xs.length - 1) 0 :: xs.take (xs.length - 1)).length := by
        simp only [List.length_cons, List.length_take]
        rw [hxs]
        simp
      exact (heapDownGo_perm key _ _ 0 _ hlen2).trans hperm1

theorem heapPop_fst (key : Nat → Int) (l : List Nat) :
    (heapPop key l).1 = l.headD 0 := rfl

/-! ## Heap verification, part 2: the sift procedures establish the
min-heap ordering `mergeHeap.Less` maintains -/

/-- The binary min-heap invariant of `container/heap`: every element is
at least its parent (with `Less` strict, `!Less(child, parent)` is
`parent ≤ child`). -/
def HeapProp (key : Nat → Int) (l : List Nat) : Prop :=
  ∀ c, 0 < c → c < l.length →
    key (l.getD ((c - 1) / 2) 0) ≤ key (l.getD c 0)

theorem getD_mem {α : Type} (l : List α) (c : Nat) (d : α)
    (h : c < l.length) : l.getD c d ∈ l := by
  rw [List.getD_eq_getElem?_getD, List.getElem?_eq_getElem h]
  exact List.getElem_mem h

theorem getD_append_left {α : Type} (l l₂ : List α) (c : Nat) (d : α)
    (h : c < l.length) : (l ++ l₂).getD c d = l.getD c d := by
  simp [List.getD_eq_getElem?_getD, List.getElem?_append_left h]

theorem heapProp_congr (key key' : Nat → Int) (l : List Nat)
    (hk : ∀ y ∈ l, key' y = key y) (h : HeapProp key l) :
    HeapProp key' l := by
  intro c hc hcl
  rw [hk _ (getD_mem l c 0 hcl), hk _ (getD_mem l ((c - 1) / 2) 0 (by omega))]
  exact h c hc hcl

theorem heapProp_root_min (key : Nat → Int) (l : List Nat)
    (h : HeapProp key l) :
    ∀ c, c < l.length → key (l.getD 0 0) ≤ key (l.getD c 0) := by
  intro c
  induction c using Nat.strong_induction_on with
  | _ c ih =>
    intro hc
    rcases Nat.eq_zero_or_pos c with rfl | hpos
    · exact le_refl _
    · exact le_trans (ih ((c - 1) / 2) (by omega) (by omega)) (h c hpos hc)

theorem heapProp_head_min (key : Nat → Int) (l : List Nat)
    (h : HeapProp key l) (hne : l ≠ []) :
    ∀ y ∈ l, key (l.headD 0) ≤ key y := by
  intro y hy
  obtain ⟨c, hcl, hcy⟩ := List.mem_iff_getElem.mp hy
  have hhead : l.headD 0 = l.getD 0 0 := by
    cases l with
    | nil => exact absurd rfl hne
    | cons a as => rfl
  have hc : l.getD c 0 = y := by
    rw [List.getD_eq_getElem?_getD, List.getElem?_eq_getElem hcl]
    exact hcy
  rw [hhead, ← hc]
  exact heapProp_root_min key l h c hcl

theorem heapUpGo_heapProp (key : Nat → Int) (fuel : Nat) :
    ∀ (l : List Nat) (j : Nat), j ≤ fuel → j < l.length →
      (∀ c, 0 < c → c < l.length → c ≠ j →
        key (l.getD ((c - 1) / 2) 0) ≤ key (l.getD c 0)) →
      (∀ c, 0 < c → c < l.length → (c - 1) / 2 = j → 0 < j →
        key (l.getD ((j - 1) / 2) 0) ≤ key (l.getD c 0)) →
      HeapProp key (heapUpGo key fuel l j) := by
  induction fuel with
  | zero =>
    intro l j hfuel _ ha _
    intro c hc hcl
    exact ha c hc hcl (by omega)
  | succ fuel ih =>
    intro l j hfuel hj ha hb
    unfold heapUpGo
    by_cases h0 : j = 0
    · rw [if_pos h0]
      intro c hc hcl
      exact ha c hc hcl (by omega)
    · rw [if_neg h0]
      by_cases hlt : key (l.getD j 0) < key (l.getD ((j - 1) / 2) 0)
      · rw [if_pos hlt]
        have hij : (j - 1) / 2 < j := by omega
        set i := (j - 1) / 2 with hidef
        have hil : i < l.length := by omega
        have gi : (lswap l i j).getD i 0 = l.getD j 0 :=
          lswap_getD_left l i j hil (by omega)
        have gj : (lswap l i j).getD j 0 = l.getD i 0 :=
          lswap_getD_right l i j hj
        have go : ∀ c, c ≠ i → c ≠ j → (lswap l i j).getD c 0 = l.getD c 0 :=
          fun c h1 h2 => lswap_getD_other l i j c h1 h2
        apply ih (lswap l i j) i (by omega) (by rw [lswap_length]; omega)
        · -- pairs other than (i, parent i) hold after the swap
          intro c hc hcl hci
          rw [lswap_length] at hcl
          by_cases hcj : c = j
          · subst hcj
            rw [show (c - 1) / 2 = i from hidef.symm, gi, gj]
            exact le_of_lt hlt
          · by_cases hpi : (c - 1) / 2 = i
            · rw [hpi, gi, go c hci hcj]
              exact le_trans (le_of_lt hlt) (by rw [← hpi]; exact ha c hc hcl hcj)
            · by_cases hpj : (c - 1) / 2 = j
              · have hcgt : j < c := by omega
                rw [hpj, gj, go c hci hcj]
                exact hb c hc hcl hpj (by omega)
              · rw [go _ hpi hpj, go c hci hcj]
                exact ha c hc hcl hcj
        · -- the grandparent bound for the new position i
          intro c hc hcl hpc hipos
          rw [lswap_length] at hcl
          have hpne : (i - 1) / 2 ≠ i := by omega
          have hpnej : (i - 1) / 2 ≠ j := by omega
          rw [go _ hpne hpnej]
          have hbase : key (l.getD ((i - 1) / 2) 0) ≤ key (l.getD i 0) :=
            ha i hipos hil (by omega)
          by_cases hcj : c = j
          · subst hcj
            rw [gj]
            exact hbase
          · have hcnei : c ≠ i := by omega
            rw [go c hcnei hcj]
            exact le_trans hbase (by
              have := ha c hc hcl hcj
              rw [hpc] at this
              exact this)
      · rw [if_neg hlt]
        intro c hc hcl
        by_cases hcj : c = j
        · subst hcj
          exact le_of_not_lt hlt
        · exact ha c hc hcl hcj

theorem heapDownGo_heapProp (key : Nat → Int) (fuel : Nat) :
    ∀ (l : List Nat) (i m : Nat), m = l.length → m - i ≤ fuel →
      (∀ c, 0 < c → c < m → (c - 1) / 2 ≠ i →
        key (l.getD ((c - 1) / 2) 0) ≤ key (l.getD c 0)) →
      (0 < i → ∀ c, 0 < c → c < m → (c - 1) / 2 = i →
        key (l.getD ((i - 1) / 2) 0) ≤ key (l.getD c 0)) →
      HeapProp key (heapDownGo key fuel l i m) := by
  induction fuel with
  | zero =>
    intro l i m hm hfuel ha _
    show HeapProp key l
    intro c hc hcl
    exact ha c hc (by omega) (by omega)
  | succ fuel ih =>
    intro l i m hm hfuel ha hb
    unfold heapDownGo
    by_cases hch : 2 * i + 1 < m
    · rw [if_pos hch]
      set j := if 2 * i + 2 < m ∧ key (l.getD (2 * i + 2) 0) < key (l.getD (2 * i + 1) 0)
               then 2 * i + 2 else 2 * i + 1 with hjdef
      have hjfacts : (j = 2 * i + 1 ∨ j = 2 * i + 2) ∧ j < m ∧ i < j := by
        rw [hjdef]
        split <;> refine ⟨by omega, by omega, by omega⟩
      have hjpar : (j - 1) / 2 = i := by omega
      have hjmin : key (l.getD j 0) ≤ key (l.getD (2 * i + 1) 0) ∧
          (2 * i + 2 < m → key (l.getD j 0) ≤ key (l.getD (2 * i + 2) 0)) := by
        rw [hjdef]
        split
        · next hcc => exact ⟨le_of_lt hcc.2, fun _ => le_refl _⟩
        · next hcc =>
          refine ⟨le_refl _, fun h2 => ?_⟩
          by_contra hno
          exact hcc ⟨h2, by omega⟩
      by_cases hlt : key (l.getD j 0) < key (l.getD i 0)
      · rw [if_pos hlt]
        have gi : (lswap l i j).getD i 0 = l.getD j 0 :=
          lswap_getD_left l i j (by omega) (by omega)
        have gj : (lswap l i j).getD j 0 = l.getD i 0 :=
          lswap_getD_right l i j (by omega)
        have go : ∀ c, c ≠ i → c ≠ j → (lswap l i j).getD c 0 = l.getD c 0 :=
          fun c h1 h2 => lswap_getD_other l i j c h1 h2
        apply ih (lswap l i j) j m (by rw [lswap_length]; exact hm) (by omega)
        · intro c hc hcl hpc
          by_cases hcj : c = j
          · subst hcj
            rw [hjpar, gi, gj]
            exact le_of_lt hlt
          · by_cases hci : c = i
            · subst hci
              have hpne : (c - 1) / 2 ≠ c := by omega
              have hpnej : (c - 1) / 2 ≠ j := by omega
              rw [go _ hpne hpnej, gi]
              exact hb hc j (by omega) (by omega) hjpar
            · by_cases hpi : (c - 1) / 2 = i
              · -- c is the sibling of j
                rw [hpi, gi, go c hci hcj]
                have hcchild : c = 2 * i + 1 ∨ c = 2 * i + 2 := by omega
                rcases hcchild with rfl | rfl
                · exact hjmin.1
                · exact hjmin.2 (by omega)
              · by_cases hpj2 : (c - 1) / 2 = j
                · exact absurd hpj2 hpc
                · rw [go _ hpi hpj2, go c hci hcj]
                  exact ha c hc hcl hpi
        · intro _ c hc hcl hpc
          rw [hjpar, gi]
          have hcgt : j < c := by omega
          have hcni : c ≠ i := by omega
          have hcnj : c ≠ j := by omega
          rw [go c hcni hcnj]
          have hstep := ha c hc hcl (by omega)
          rw [hpc] at hstep
          exact hstep
      · rw [if_neg hlt]
        intro c hc hcl
        by_cases hpi : (c - 1) / 2 = i
        · have hcchild : c = 2 * i + 1 ∨ c = 2 * i + 2 := by omega
          rw [hpi]
          have hile : key (l.getD i 0) ≤ key (l.getD j 0) := le_of_not_lt hlt
          rcases hcchild with rfl | rfl
          · exact le_trans hile hjmin.1
          · exact le_trans hile (hjmin.2 (by omega))
        · exact ha c hc (by omega) hpi
    · rw [if_neg hch]
      intro c hc hcl
      exact ha c hc (by omega) (by omega)

theorem heapPush_heapProp (key : Nat → Int) (l : List Nat) (x : Nat)
    (h : HeapProp key l) : HeapProp key (heapPush key l x) := by
  unfold heapPush heapUp
  apply heapUpGo_heapProp key l.length (l ++ [x]) l.length (le_refl _) (by simp)
  · intro c hc hcl hcj
    have hclen : c < l.length := by
      simp only [List.length_append, List.length_singleton] at hcl
      omega
    rw [getD_append_left _ _ _ _ hclen, getD_append_left _ _ _ _ (by omega)]
    exact h c hc hclen
  · intro c hc hcl hp hj
    exfalso
    simp only [List.length_append, List.length_singleton] at hcl
    omega

theorem heapPop_heapProp (key : Nat → Int) (l : List Nat)
    (h : HeapProp key l) : HeapProp key (heapPop key l).2 := by
  match l with
  | [] =>
    show HeapProp key ([] : List Nat)
    intro c hc hcl
    simp at hcl
  | x :: xs =>
    show HeapProp key (heapDown key (((x :: xs).take ((x :: xs).length - 1)).set 0
      ((x :: xs).getD ((x :: xs).length - 1) 0)) 0 ((x :: xs).length - 1))
    have halen : (((x :: xs).take ((x :: xs).length - 1)).set 0
        ((x :: xs).getD ((x :: xs).length - 1) 0)).length =
        (x :: xs).length - 1 := by
      rw [List.length_set, List.length_take]
      simp
    have hpos_eq : ∀ t, 0 < t → t < (x :: xs).length - 1 →
        (((x :: xs).take ((x :: xs).length - 1)).set 0
          ((x :: xs).getD ((x :: xs).length - 1) 0)).getD t 0 =
          (x :: xs).getD t 0 := by
      intro t ht htm
      rw [getD_set_ne _ _ _ _ _ (by omega)]
      simp only [List.getD_eq_getElem?_getD]
      rw [List.getElem?_take_of_lt htm]
    unfold heapDown
    apply heapDownGo_heapProp key ((x :: xs).length - 1 - 0) _ 0
      ((x :: xs).length - 1) halen.symm (le_refl _)
    · intro c hc hcl hpc
      rw [hpos_eq c hc hcl, hpos_eq _ (by omega) (by omega)]
      exact h c hc (by omega)
    · intro h0
      exact absurd h0 (by omega)

theorem heapPush_mem (key : Nat → Int) (l : List Nat) (x y : Nat) :
    y ∈ heapPush key l x ↔ y ∈ l ∨ y = x := by
  rw [(heapPush_perm key l x).mem_iff]
  simp [List.mem_cons, or_comm]

theorem heapPush_nodup (key : Nat → Int) (l : List Nat) (x : Nat)
    (hnd : l.Nodup) (hx : x ∉ l) : (heapPush key l x).Nodup := by
  rw [(heapPush_perm key l x).nodup_iff]
  exact List.nodup_cons.mpr ⟨hx, hnd⟩

theorem heapPop_mem (key : Nat → Int) (l : List Nat) (y : Nat)
    (hne : l ≠ []) (hnd : l.Nodup) :
    y ∈ (heapPop key l).2 ↔ y ∈ l ∧ y ≠ l.headD 0 := by
  rw [(heapPop_snd_perm key l hne).mem_iff]
  match l, hne, hnd with
  | x :: xs, _, hnd =>
    simp only [List.tail_cons, List.headD_cons]
    have hx : x ∉ xs := (List.nodup_cons.mp hnd).1
    constructor
    · intro hy
      exact ⟨List.mem_cons_of_mem _ hy, fun he => hx (he ▸ hy)⟩
    · rintro ⟨hy, hne2⟩
      rcases List.mem_cons.mp hy with rfl | h2
      · exact absurd rfl hne2
      · exact h2

theorem heapPop_nodup (key : Nat → Int) (l : List Nat) (hne : l ≠ [])
    (hnd : l.Nodup) : (heapPop key l).2.Nodup := by
  rw [(heapPop_snd_perm key l hne).nodup_iff]
  match l, hnd with
  | x :: xs, hnd => exact (List.nodup_cons.mp hnd).2

theorem heapPop_root_min (key : Nat → Int) (l : List Nat)
    (h : HeapProp key l) (hne : l ≠ []) :
    ∀ y ∈ l, key (heapPop key l).1 ≤ key y := by
  rw [heapPop_fst]
  exact heapProp_head_min key l h hne

theorem headD_mem (l : List Nat) (hne : l ≠ []) : l.headD 0 ∈ l := by
  match l, hne with
  | x :: xs, _ => exact List.mem_cons_self x xs

/-! ## The coordinator invariant (C1)

For each scraper `j`, its *virtual stream* is everything of it the
coordinator has not yet emitted: the buffered head, the pending queue,
and the items still to be delivered on `mergeChan`.  The invariant ties
the heap to the non-nil buffer slots, keeps every virtual stream sorted,
and records the worker protocol (each open scraper still owes exactly
its remaining items followed by the close marker). -/

/-- The items scraper `j` has yet to deliver in the remaining schedule. -/
def future (i : Nat) (msgs : List Slot) : List ShowtimeListItem :=
  (proj i msgs).reduceOption

/-- Everything of scraper `j` the coordinator has not emitted yet, in
arrival order. -/
def virtualStream (st : MergeState) (msgs : List Slot) (j : Nat) :
    List ShowtimeListItem :=
  (st.buffer.getD j none).toList ++ st.pending.getD j [] ++ future j msgs

structure MergeInv (n : Nat) (st : MergeState) (msgs : List Slot) : Prop where
  hbuf : st.buffer.length = n
  hpend : st.pending.length = n
  hclosed : st.closed.length = n
  pendBuf : ∀ j, j < n → st.pending.getD j [] ≠ [] →
    (st.buffer.getD j none).isSome = true
  virtSorted : ∀ j, j < n → SortedByStart (virtualStream st msgs j)
  closedProj : ∀ j, j < n →
    (st.closed.getD j false = true → proj j msgs = []) ∧
    (st.closed.getD j false = false →
      ∃ l : List ShowtimeListItem, proj j msgs = l.map some ++ [none])
  nodup : st.hp.Nodup
  hmem : ∀ y, y ∈ st.hp ↔ (y < n ∧ (st.buffer.getD y none).isSome = true)
  heapOk : HeapProp (stKey st) st.hp
  msgIdx : ∀ s ∈ msgs, s.index < n

/-- Every item the coordinator has not yet emitted is at least `lo`. -/
def LoBound (n : Nat) (lo : Int) (st : MergeState) (msgs : List Slot) : Prop :=
  ∀ j, j < n → ∀ x ∈ virtualStream st msgs j, lo ≤ startKey x

theorem proj_cons (i : Nat) (s : Slot) (rest : List Slot) :
    proj i (s :: rest) =
      if s.index = i then s.item :: proj i rest else proj i rest := by
  unfold proj
  rw [List.filter_cons]
  by_cases h : s.index = i
  · simp [h]
  · simp [h]

theorem future_cons_eq (i : Nat) (s : Slot) (rest : List Slot)
    (h : s.index = i) :
    future i (s :: rest) = s.item.toList ++ future i rest := by
  unfold future
  rw [proj_cons, if_pos h]
  cases s.item <;> simp [List.reduceOption]

theorem future_cons_ne (i : Nat) (s : Slot) (rest : List Slot)
    (h : s.index ≠ i) : future i (s :: rest) = future i rest := by
  unfold future
  rw [proj_cons, if_neg h]

theorem canPop_vacuous (n : Nat) (st : MergeState) (msgs : List Slot)
    (hinv : MergeInv n st msgs) (hcp : canPop st = true) :
    ∀ j, j < n → st.buffer.getD j none = none →
      virtualStream st msgs j = [] := by
  intro j hj hnone
  have hj' : j < st.buffer.length := by rw [hinv.hbuf]; exact hj
  have hcond := List.all_eq_true.mp hcp j (List.mem_range.mpr hj')
  rw [hnone] at hcond
  simp only [Option.isSome_none, Bool.or_false, Bool.false_or] at hcond
  rcases Bool.or_eq_true_iff.mp hcond with hclosed | hpne
  · have hpempty : st.pending.getD j [] = [] := by
      by_contra hne
      have hsome := hinv.pendBuf j hj hne
      rw [hnone] at hsome
      simp at hsome
    have hproj : proj j msgs = [] := (hinv.closedProj j hj).1 hclosed
    unfold virtualStream future
    rw [hnone, hpempty, hproj]
    rfl
  · exfalso
    have hpempty : st.pending.getD j [] ≠ [] := by
      intro he
      rw [he] at hpne
      simp at hpne
    have hsome := hinv.pendBuf j hj hpempty
    rw [hnone] at hsome
    simp at hsome

theorem emptyMsgs_vacuous (n : Nat) (st : MergeState)
    (hinv : MergeInv n st []) :
    ∀ j, j < n → st.buffer.getD j none = none →
      virtualStream st [] j = [] := by
  intro j hj hnone
  have hpempty : st.pending.getD j [] = [] := by
    by_contra hne
    have hsome := hinv.pendBuf j hj hne
    rw [hnone] at hsome
    simp at hsome
  unfold virtualStream future proj
  rw [hnone, hpempty]
  rfl

theorem virtualStream_eq_of (st st' : MergeState) (msgs : List Slot) (j : Nat)
    (hb : st'.buffer.getD j none = st.buffer.getD j none)
    (hp : st'.pending.getD j [] = st.pending.getD j []) :
    virtualStream st' msgs j = virtualStream st msgs j := by
  unfold virtualStream
  rw [hb, hp]

theorem stKey_eq_at (st st' : MergeState) (y : Nat)
    (h : st'.buffer.getD y none = st.buffer.getD y none) :
    stKey st' y = stKey st y := by
  unfold stKey
  rw [h]

/-- One pop under the coordinator invariant: the popped slot is never
nil (the defensive `item == nil` branch of `run` is dead code), the
emitted item is a minimum of everything not yet emitted, and the
invariant is re-established with the emitted item as new lower bound. -/
theorem popOne_spec (n : Nat) (st : MergeState) (msgs : List Slot) (lo : Int)
    (hinv : MergeInv n st msgs) (hlo : LoBound n lo st msgs)
    (hne : st.hp ≠ [])
    (hvac : ∀ j, j < n → st.buffer.getD j none = none →
      virtualStream st msgs j = []) :
    ∃ it st', popOne st = (some it, st') ∧ lo ≤ startKey it ∧
      MergeInv n st' msgs ∧ LoBound n (startKey it) st' msgs := by
  set j0 := st.hp.headD 0 with hj0def
  have hj0mem : j0 ∈ st.hp := headD_mem st.hp hne
  obtain ⟨hj0n, hj0some⟩ := (hinv.hmem j0).mp hj0mem
  obtain ⟨it, hit⟩ : ∃ it, st.buffer.getD j0 none = some it :=
    Option.isSome_iff_exists.mp hj0some
  have hj0buf : j0 < st.buffer.length := by rw [hinv.hbuf]; exact hj0n
  have hj0pend : j0 < st.pending.length := by rw [hinv.hpend]; exact hj0n
  have hkey0 : stKey st j0 = startKey it := by
    unfold stKey
    rw [hit]
  have hmin : ∀ y ∈ st.hp, startKey it ≤ stKey st y := by
    intro y hy
    have hroot := heapPop_root_min (stKey st) st.hp hinv.heapOk hne y hy
    rw [heapPop_fst, ← hj0def, hkey0] at hroot
    exact hroot
  have hvirt0 : virtualStream st msgs j0 =
      it :: (st.pending.getD j0 [] ++ future j0 msgs) := by
    unfold virtualStream
    rw [hit]
    rfl
  have hlo_it : lo ≤ startKey it := by
    refine hlo j0 hj0n it ?_
    rw [hvirt0]
    exact List.mem_cons_self _ _
  have hs0 := hinv.virtSorted j0 hj0n
  rw [hvirt0] at hs0
  have htail_ge : ∀ x ∈ st.pending.getD j0 [] ++ future j0 msgs,
      startKey it ≤ startKey x := (List.pairwise_cons.mp hs0).1
  have htail_sorted : SortedByStart (st.pending.getD j0 [] ++ future j0 msgs) :=
    (List.pairwise_cons.mp hs0).2
  have hpop1 : (heapPop (stKey st) st.hp).1 = j0 := heapPop_fst _ _
  have hp2nodup : (heapPop (stKey st) st.hp).2.Nodup :=
    heapPop_nodup _ _ hne hinv.nodup
  have hp2mem : ∀ y, y ∈ (heapPop (stKey st) st.hp).2 ↔
      (y ∈ st.hp ∧ y ≠ j0) := by
    intro y
    rw [heapPop_mem _ _ _ hne hinv.nodup, ← hj0def]
  have hp2heap : HeapProp (stKey st) (heapPop (stKey st) st.hp).2 :=
    heapPop_heapProp _ _ hinv.heapOk
  have hj0notin : j0 ∉ (heapPop (stKey st) st.hp).2 := by
    intro hy
    exact ((hp2mem j0).mp hy).2 rfl
  have hother : ∀ j, j < n → j ≠ j0 → ∀ x ∈ virtualStream st msgs j,
      startKey it ≤ startKey x := by
    intro j hj hne2 x hx
    match hbj : st.buffer.getD j none with
    | none =>
      rw [hvac j hj hbj] at hx
      exact absurd hx (List.not_mem_nil x)
    | some b =>
      have hjmem : j ∈ st.hp := (hinv.hmem j).mpr ⟨hj, by rw [hbj]; rfl⟩
      have hb_ge : startKey it ≤ startKey b := by
        have h1 := hmin j hjmem
        unfold stKey at h1
        rw [hbj] at h1
        exact h1
      have hvirtj : virtualStream st msgs j =
          b :: (st.pending.getD j [] ++ future j msgs) := by
        unfold virtualStream
        rw [hbj]
        rfl
      rw [hvirtj] at hx
      rcases List.mem_cons.mp hx with rfl | hx2
      · exact hb_ge
      · have hsj := hinv.virtSorted j hj
        rw [hvirtj] at hsj
        exact le_trans hb_ge ((List.pairwise_cons.mp hsj).1 x hx2)
  rcases hpend : st.pending.getD j0 [] with _ | ⟨p, rest0⟩
  · -- pending[j0] is empty: refill leaves the cleared state unchanged
    set stA : MergeState := ({ st with
      buffer := st.buffer.set j0 none,
      hp := (heapPop (stKey st) st.hp).2 }) with hstA
    have hbufA0 : stA.buffer.getD j0 none = none := by
      show (st.buffer.set j0 none).getD j0 none = none
      exact getD_set_self _ _ _ _ hj0buf
    have hbufA : ∀ y, y ≠ j0 → stA.buffer.getD y none = st.buffer.getD y none := by
      intro y hy
      show (st.buffer.set j0 none).getD y none = st.buffer.getD y none
      exact getD_set_ne _ _ _ _ _ (Ne.symm hy)
    have hv0 : virtualStream stA msgs j0 = future j0 msgs := by
      unfold virtualStream
      rw [hbufA0]
      show ([] : List ShowtimeListItem) ++ st.pending.getD j0 [] ++
        future j0 msgs = future j0 msgs
      rw [hpend]
      rfl
    have hvnew : ∀ j, j ≠ j0 →
        virtualStream stA msgs j = virtualStream st msgs j := by
      intro j hj
      exact virtualStream_eq_of st stA msgs j (hbufA j hj) rfl
    refine ⟨it, stA, ?_, hlo_it, ?_, ?_⟩
    · simp only [popOne, hpop1, hit, refill, hpend]
    · refine ⟨?_, hinv.hpend, hinv.hclosed, ?_, ?_, hinv.closedProj,
        hp2nodup, ?_, ?_, hinv.msgIdx⟩
      · show (st.buffer.set j0 none).length = n
        simp [hinv.hbuf]
      · intro j hj hpj
        by_cases hjj : j = j0
        · subst hjj
          exact absurd hpend hpj
        · rw [hbufA j hjj]
          exact hinv.pendBuf j hj hpj
      · intro j hj
        by_cases hjj : j = j0
        · subst hjj
          rw [hv0]
          rw [hpend] at htail_sorted
          simpa using htail_sorted
        · rw [hvnew j hjj]
          exact hinv.virtSorted j hj
      · intro y
        constructor
        · intro hy
          obtain ⟨hymem, hyne⟩ := (hp2mem y).mp hy
          obtain ⟨hyn, hysome⟩ := (hinv.hmem y).mp hymem
          refine ⟨hyn, ?_⟩
          rw [hbufA y hyne]
          exact hysome
        · rintro ⟨hyn, hysome⟩
          by_cases hyy : y = j0
          · subst hyy
            rw [hbufA0] at hysome
            simp at hysome
          · rw [hbufA y hyy] at hysome
            exact (hp2mem y).mpr ⟨(hinv.hmem y).mpr ⟨hyn, hysome⟩, hyy⟩
      · refine heapProp_congr (stKey st) (stKey stA) _ ?_ hp2heap
        intro y hy
        exact stKey_eq_at st stA y (hbufA y ((hp2mem y).mp hy).2)
    · intro j hj x hx
      by_cases hjj : j = j0
      · subst hjj
        rw [hv0] at hx
        refine htail_ge x ?_
        rw [hpend]
        simpa using hx
      · rw [hvnew j hjj] at hx
        exact hother j hj hjj x hx
  · -- pending[j0] = p :: rest0: refill moves p into the buffer and
    -- pushes j0 back
    set stBmid : MergeState := ({ st with
      buffer := (st.buffer.set j0 none).set j0 (some p),
      pending := st.pending.set j0 rest0,
      hp := (heapPop (stKey st) st.hp).2 }) with hstBmid
    set stB : MergeState := ({ st with
      buffer := (st.buffer.set j0 none).set j0 (some p),
      pending := st.pending.set j0 rest0,
      hp := heapPush (stKey stBmid) (heapPop (stKey st) st.hp).2 j0 }) with hstB
    have hbufB0 : stB.buffer.getD j0 none = some p := by
      show ((st.buffer.set j0 none).set j0 (some p)).getD j0 none = some p
      exact getD_set_self _ _ _ _ (by simpa using hj0buf)
    have hbufB : ∀ y, y ≠ j0 → stB.buffer.getD y none = st.buffer.getD y none := by
      intro y hy
      show ((st.buffer.set j0 none).set j0 (some p)).getD y none =
        st.buffer.getD y none
      rw [getD_set_ne _ _ _ _ _ (Ne.symm hy), getD_set_ne _ _ _ _ _ (Ne.symm hy)]
    have hbufBmid : ∀ y, stBmid.buffer.getD y none = stB.buffer.getD y none :=
      fun y => rfl
    have hpendB0 : stB.pending.getD j0 [] = rest0 := by
      show (st.pending.set j0 rest0).getD j0 [] = rest0
      exact getD_set_self _ _ _ _ hj0pend
    have hpendB : ∀ y, y ≠ j0 →
        stB.pending.getD y [] = st.pending.getD y [] := by
      intro y hy
      show (st.pending.set j0 rest0).getD y [] = st.pending.getD y []
      exact getD_set_ne _ _ _ _ _ (Ne.symm hy)
    have hv0 : virtualStream stB msgs j0 = p :: (rest0 ++ future j0 msgs) := by
      unfold virtualStream
      rw [hbufB0, hpendB0]
      rfl
    have hvnew : ∀ j, j ≠ j0 →
        virtualStream stB msgs j = virtualStream st msgs j := by
      intro j hj
      exact virtualStream_eq_of st stB msgs j (hbufB j hj) (hpendB j hj)
    rw [hpend] at htail_ge htail_sorted
    rw [List.cons_append] at htail_ge htail_sorted
    refine ⟨it, stB, ?_, hlo_it, ?_, ?_⟩
    · simp only [popOne, hpop1, hit, refill, hpend]
    · refine ⟨?_, ?_, hinv.hclosed, ?_, ?_, hinv.closedProj, ?_, ?_, ?_,
        hinv.msgIdx⟩
      · show ((st.buffer.set j0 none).set j0 (some p)).length = n
        simp [hinv.hbuf]
      · show (st.pending.set j0 rest0).length = n
        simp [hinv.hpend]
      · intro j hj hpj
        by_cases hjj : j = j0
        · subst hjj
          rw [hbufB0]
          rfl
        · rw [hbufB j hjj]
          rw [hpendB j hjj] at hpj
          exact hinv.pendBuf j hj hpj
      · intro j hj
        by_cases hjj : j = j0
        · subst hjj
          rw [hv0]
          exact htail_sorted
        · rw [hvnew j hjj]
          exact hinv.virtSorted j hj
      · show (heapPush (stKey stBmid) (heapPop (stKey st) st.hp).2 j0).Nodup
        exact heapPush_nodup _ _ _ hp2nodup hj0notin
      · intro y
        show y ∈ heapPush (stKey stBmid) (heapPop (stKey st) st.hp).2 j0 ↔ _
        rw [heapPush_mem]
        constructor
        · rintro (hy | rfl)
          · obtain ⟨hymem, hyne⟩ := (hp2mem y).mp hy
            obtain ⟨hyn, hysome⟩ := (hinv.hmem y).mp hymem
            refine ⟨hyn, ?_⟩
            rw [hbufB y hyne]
            exact hysome
          · exact ⟨hj0n, by rw [hbufB0]; rfl⟩
        · rintro ⟨hyn, hysome⟩
          by_cases hyy : y = j0
          · exact Or.inr hyy
          · rw [hbufB y hyy] at hysome
            exact Or.inl ((hp2mem y).mpr ⟨(hinv.hmem y).mpr ⟨hyn, hysome⟩, hyy⟩)
      · show HeapProp (stKey stB)
          (heapPush (stKey stBmid) (heapPop (stKey st) st.hp).2 j0)
        have hmidheap : HeapProp (stKey stBmid) (heapPop (stKey st) st.hp).2 := by
          refine heapProp_congr (stKey st) (stKey stBmid) _ ?_ hp2heap
          intro y hy
          refine stKey_eq_at st stBmid y ?_
          rw [hbufBmid y]
          exact hbufB y ((hp2mem y).mp hy).2
        have hkeyeq : ∀ y, stKey stB y = stKey stBmid y := by
          intro y
          exact stKey_eq_at stBmid stB y rfl
        refine heapProp_congr (stKey stBmid) (stKey stB) _ ?_
          (heapPush_heapProp (stKey stBmid) _ j0 hmidheap)
        intro y _
        exact hkeyeq y
    · intro j hj x hx
      by_cases hjj : j = j0
      · subst hjj
        rw [hv0] at hx
        exact htail_ge x hx
      · rw [hvnew j hjj] at hx
        exact hother j hj hjj x hx

theorem mergeInv_sent (n : Nat) (st : MergeState) (msgs : List Slot) (k : Nat)
    (h : MergeInv n st msgs) : MergeInv n { st with sent := k } msgs :=
  ⟨h.hbuf, h.hpend, h.hclosed, h.pendBuf, h.virtSorted, h.closedProj,
   h.nodup, h.hmem, h.heapOk, h.msgIdx⟩

theorem loBound_sent (n : Nat) (lo : Int) (st : MergeState) (msgs : List Slot)
    (k : Nat) (h : LoBound n lo st msgs) :
    LoBound n lo { st with sent := k } msgs := h

/-- The pop phase preserves the invariant, emits a sorted run bounded
below by `lo`, and leaves a state whose unemitted items all dominate
the last emission. -/
theorem popPhaseGo_spec (limit fuel : Nat) :
    ∀ (n : Nat) (st : MergeState) (msgs : List Slot) (lo : Int),
      MergeInv n st msgs → LoBound n lo st msgs →
      ∃ lo', lo ≤ lo' ∧
        MergeInv n (popPhaseGo limit fuel st).2 msgs ∧
        LoBound n lo' (popPhaseGo limit fuel st).2 msgs ∧
        SortedByStart (popPhaseGo limit fuel st).1 ∧
        (∀ e ∈ (popPhaseGo limit fuel st).1,
          lo ≤ startKey e ∧ startKey e ≤ lo') := by
  induction fuel with
  | zero =>
    intro n st msgs lo hinv hlo
    exact ⟨lo, le_refl lo, hinv, hlo, List.Pairwise.nil,
      fun e he => absurd he (List.not_mem_nil e)⟩
  | succ fuel ih =>
    intro n st msgs lo hinv hlo
    by_cases hc : (canPop st && !st.hp.isEmpty && decide (st.sent < limit)) = true
    · have hcp : canPop st = true := by
        simp only [Bool.and_eq_true] at hc
        exact hc.1.1
      have hne : st.hp ≠ [] := by
        intro h
        simp only [Bool.and_eq_true] at hc
        rw [h] at hc
        simp at hc
      obtain ⟨it, st', hpopeq, hloit, hinv', hlo'⟩ :=
        popOne_spec n st msgs lo hinv hlo hne
          (canPop_vacuous n st msgs hinv hcp)
      have heq : popPhaseGo limit (fuel + 1) st =
          (it :: (popPhaseGo limit fuel { st' with sent := st'.sent + 1 }).1,
           (popPhaseGo limit fuel { st' with sent := st'.sent + 1 }).2) := by
        conv_lhs => unfold popPhaseGo
        rw [if_pos hc, hpopeq]
      rw [heq]
      obtain ⟨lo', hlole, hinv2, hlo2, hsorted2, hbound2⟩ :=
        ih n { st' with sent := st'.sent + 1 } msgs (startKey it)
          (mergeInv_sent _ _ _ _ hinv') (loBound_sent _ _ _ _ _ hlo')
      refine ⟨lo', le_trans hloit hlole, hinv2, hlo2, ?_, ?_⟩
      · refine List.pairwise_cons.mpr ⟨?_, hsorted2⟩
        intro e he
        exact (hbound2 e he).1
      · intro e he
        rcases List.mem_cons.mp he with rfl | he2
        · exact ⟨hloit, hlole⟩
        · obtain ⟨h1, h2⟩ := hbound2 e he2
          exact ⟨le_trans hloit h1, h2⟩
    · have heq : popPhaseGo limit (fuel + 1) st = ([], st) := by
        unfold popPhaseGo
        rw [if_neg hc]
      rw [heq]
      exact ⟨lo, le_refl lo, hinv, hlo, List.Pairwise.nil,
        fun e he => absurd he (List.not_mem_nil e)⟩

/-- The drain after the channel closes emits a sorted run bounded below
by `lo`. -/
theorem drainGo_spec (limit fuel : Nat) :
    ∀ (n : Nat) (st : MergeState) (lo : Int),
      MergeInv n st [] → LoBound n lo st [] →
      SortedByStart (drainGo limit fuel st) ∧
      ∀ e ∈ drainGo limit fuel st, lo ≤ startKey e := by
  induction fuel with
  | zero =>
    intro n st lo _ _
    exact ⟨List.Pairwise.nil, fun e he => absurd he (List.not_mem_nil e)⟩
  | succ fuel ih =>
    intro n st lo hinv hlo
    by_cases hc : (!st.hp.isEmpty && decide (st.sent < limit)) = true
    · have hne : st.hp ≠ [] := by
        intro h
        simp only [Bool.and_eq_true] at hc
        rw [h] at hc
        simp at hc
      obtain ⟨it, st', hpopeq, hloit, hinv', hlo'⟩ :=
        popOne_spec n st [] lo hinv hlo hne (emptyMsgs_vacuous n st hinv)
      have heq : drainGo limit (fuel + 1) st =
          it :: drainGo limit fuel { st' with sent := st'.sent + 1 } := by
        conv_lhs => unfold drainGo
        rw [if_pos hc, hpopeq]
      rw [heq]
      obtain ⟨hs2, hb2⟩ := ih n { st' with sent := st'.sent + 1 } (startKey it)
        (mergeInv_sent _ _ _ _ hinv') (loBound_sent _ _ _ _ _ hlo')
      refine ⟨List.pairwise_cons.mpr ⟨hb2, hs2⟩, ?_⟩
      intro e he
      rcases List.mem_cons.mp he with rfl | he2
      · exact hloit
      · exact le_trans hloit (hb2 e he2)
    · have heq : drainGo limit (fuel + 1) st = [] := by
        unfold drainGo
        rw [if_neg hc]
      rw [heq]
      exact ⟨List.Pairwise.nil, fun e he => absurd he (List.not_mem_nil e)⟩

/-- Receiving one slot preserves the invariant and the lower bound: a
close marker sets the closed flag, an item lands in the buffer (pushing
its index) or the pending queue; either way nothing is emitted and no
key is lost. -/
theorem applySlot_spec (n : Nat) (st : MergeState) (slot : Slot)
    (rest : List Slot) (lo : Int)
    (hinv : MergeInv n st (slot :: rest)) (hlo : LoBound n lo st (slot :: rest)) :
    MergeInv n (applySlot st slot) rest ∧
      LoBound n lo (applySlot st slot) rest := by
  have hidx : slot.index < n := hinv.msgIdx slot (List.mem_cons_self _ _)
  have hidxc : slot.index < st.closed.length := by rw [hinv.hclosed]; exact hidx
  have hidxp : slot.index < st.pending.length := by rw [hinv.hpend]; exact hidx
  have hidxb : slot.index < st.buffer.length := by rw [hinv.hbuf]; exact hidx
  have hclosedF : st.closed.getD slot.index false = false := by
    cases hcl : st.closed.getD slot.index false
    · rfl
    · exfalso
      have hproj := (hinv.closedProj slot.index hidx).1 hcl
      rw [proj_cons, if_pos rfl] at hproj
      cases hproj
  obtain ⟨lfull, hlfull⟩ := (hinv.closedProj slot.index hidx).2 hclosedF
  rw [proj_cons, if_pos rfl] at hlfull
  have hmsgIdx' : ∀ s ∈ rest, s.index < n :=
    fun s hs => hinv.msgIdx s (List.mem_cons_of_mem _ hs)
  rcases hslot : slot.item with _ | it
  · -- close marker
    rw [hslot] at hlfull
    have hprojrest : proj slot.index rest = [] := by
      cases lfull with
      | nil => simpa using hlfull
      | cons a l' => simp at hlfull
    set stN : MergeState := ({ st with
      closed := st.closed.set slot.index true }) with hstN
    have heq : applySlot st slot = stN := by
      simp only [applySlot, hslot]
    rw [heq]
    have hv : ∀ j, virtualStream stN rest j =
        virtualStream st (slot :: rest) j := by
      intro j
      by_cases hj : slot.index = j
      · unfold virtualStream
        rw [future_cons_eq _ _ _ hj, hslot]
        rfl
      · unfold virtualStream
        rw [future_cons_ne _ _ _ hj]
    refine ⟨⟨hinv.hbuf, hinv.hpend, ?_, hinv.pendBuf, ?_, ?_, hinv.nodup,
      hinv.hmem, hinv.heapOk, hmsgIdx'⟩, ?_⟩
    · show (st.closed.set slot.index true).length = n
      simp [hinv.hclosed]
    · intro j hj
      rw [hv j]
      exact hinv.virtSorted j hj
    · intro j hj
      by_cases hjj : j = slot.index
      · subst hjj
        constructor
        · intro _
          exact hprojrest
        · intro hfalse
          rw [show stN.closed.getD slot.index false = true from
            getD_set_self _ _ _ _ hidxc] at hfalse
          cases hfalse
      · have hcl : stN.closed.getD j false = st.closed.getD j false :=
          getD_set_ne _ _ _ _ _ fun h => hjj h.symm
        have hpj : proj j rest = proj j (slot :: rest) := by
          rw [proj_cons, if_neg (fun h => hjj h.symm)]
        rw [hcl, hpj]
        exact hinv.closedProj j hj
    · intro j hj x hx
      rw [hv j] at hx
      exact hlo j hj x hx
  · -- an item arrives for slot.index
    rw [hslot] at hlfull
    obtain ⟨l', hl', hprojrest⟩ : ∃ l', lfull = it :: l' ∧
        proj slot.index rest = l'.map some ++ [none] := by
      cases lfull with
      | nil => simp at hlfull
      | cons a l' =>
        simp only [List.map_cons, List.cons_append, List.cons.injEq] at hlfull
        exact ⟨l', by rw [Option.some_inj.mp hlfull.1.symm], hlfull.2⟩
    have hfut : future slot.index (slot :: rest) =
        it :: future slot.index rest := by
      rw [future_cons_eq _ _ _ rfl, hslot]
      rfl
    have hclosedPart : ∀ (st' : MergeState), st'.closed = st.closed →
        ∀ j, j < n →
        (st'.closed.getD j false = true → proj j rest = []) ∧
        (st'.closed.getD j false = false →
          ∃ l : List ShowtimeListItem, proj j rest = l.map some ++ [none]) := by
      intro st' hcl j hj
      rw [hcl]
      by_cases hjj : j = slot.index
      · subst hjj
        constructor
        · intro htrue
          rw [hclosedF] at htrue
          cases htrue
        · intro _
          exact ⟨l', hprojrest⟩
      · have hpj : proj j rest = proj j (slot :: rest) := by
          rw [proj_cons, if_neg (fun h => hjj h.symm)]
        rw [hpj]
        exact hinv.closedProj j hj
    rcases hbufidx : st.buffer.getD slot.index none with _ | b
    · -- the buffer slot is free: fill it and push the index
      have hpendidx : st.pending.getD slot.index [] = [] := by
        by_contra h
        have hsome := hinv.pendBuf slot.index hidx h
        rw [hbufidx] at hsome
        cases hsome
      have hidxnotin : slot.index ∉ st.hp := by
        intro h
        have hsome := ((hinv.hmem slot.index).mp h).2
        rw [hbufidx] at hsome
        cases hsome
      set stMid : MergeState := ({ st with
        buffer := st.buffer.set slot.index (some it) }) with hstMid
      set stS : MergeState := ({ st with
        buffer := st.buffer.set slot.index (some it),
        hp := heapPush (stKey stMid) st.hp slot.index }) with hstS
      have heq : applySlot st slot = stS := by
        simp only [applySlot, hslot, hbufidx]
      rw [heq]
      have hbufS0 : stS.buffer.getD slot.index none = some it := by
        show (st.buffer.set slot.index (some it)).getD slot.index none = some it
        exact getD_set_self _ _ _ _ hidxb
      have hbufS : ∀ y, y ≠ slot.index →
          stS.buffer.getD y none = st.buffer.getD y none := by
        intro y hy
        show (st.buffer.set slot.index (some it)).getD y none =
          st.buffer.getD y none
        exact getD_set_ne _ _ _ _ _ (Ne.symm hy)
      have hv0 : virtualStream stS rest slot.index =
          virtualStream st (slot :: rest) slot.index := by
        unfold virtualStream
        rw [hfut, hbufidx, hbufS0]
        show [it] ++ st.pending.getD slot.index [] ++
          future slot.index rest = _
        rw [hpendidx]
        rfl
      have hvne : ∀ j, j ≠ slot.index → virtualStream stS rest j =
          virtualStream st (slot :: rest) j := by
        intro j hj
        unfold virtualStream
        rw [future_cons_ne _ _ _ (Ne.symm hj), hbufS j hj]
      refine ⟨⟨?_, hinv.hpend, hinv.hclosed, ?_, ?_,
        hclosedPart stS rfl, ?_, ?_, ?_, hmsgIdx'⟩, ?_⟩
      · show (st.buffer.set slot.index (some it)).length = n
        simp [hinv.hbuf]
      · intro j hj hpj
        by_cases hjj : j = slot.index
        · subst hjj
          rw [hbufS0]
          rfl
        · rw [hbufS j hjj]
          exact hinv.pendBuf j hj hpj
      · intro j hj
        by_cases hjj : j = slot.index
        · subst hjj
          rw [hv0]
          exact hinv.virtSorted slot.index hidx
        · rw [hvne j hjj]
          exact hinv.virtSorted j hj
      · show (heapPush (stKey stMid) st.hp slot.index).Nodup
        exact heapPush_nodup _ _ _ hinv.nodup hidxnotin
      · intro y
        show y ∈ heapPush (stKey stMid) st.hp slot.index ↔ _
        rw [heapPush_mem]
        constructor
        · rintro (hy | rfl)
          · obtain ⟨hyn, hysome⟩ := (hinv.hmem y).mp hy
            refine ⟨hyn, ?_⟩
            rw [hbufS y (fun h => hidxnotin (h ▸ hy))]
            exact hysome
          · exact ⟨hidx, by rw [hbufS0]; rfl⟩
        · rintro ⟨hyn, hysome⟩
          by_cases hyy : y = slot.index
          · exact Or.inr hyy
          · refine Or.inl ((hinv.hmem y).mpr ⟨hyn, ?_⟩)
            rw [← hbufS y hyy]
            exact hysome
      · show HeapProp (stKey stS) (heapPush (stKey stMid) st.hp slot.index)
        have hmid : HeapProp (stKey stMid) st.hp := by
          refine heapProp_congr (stKey st) _ _ ?_ hinv.heapOk
          intro y hy
          refine stKey_eq_at st stMid y ?_
          show (st.buffer.set slot.index (some it)).getD y none =
            st.buffer.getD y none
          exact getD_set_ne _ _ _ _ _
            (Ne.symm (fun h => hidxnotin (h ▸ hy)))
        refine heapProp_congr (stKey stMid) _ _ ?_
          (heapPush_heapProp (stKey stMid) st.hp slot.index hmid)
        intro y _
        exact stKey_eq_at stMid stS y rfl
      · intro j hj x hx
        by_cases hjj : j = slot.index
        · subst hjj
          rw [hv0] at hx
          exact hlo slot.index hidx x hx
        · rw [hvne j hjj] at hx
          exact hlo j hj x hx
    · -- the buffer slot is occupied: queue the item
      set stP : MergeState := ({ st with
        pending := st.pending.set slot.index
          (st.pending.getD slot.index [] ++ [it]) }) with hstP
      have heq : applySlot st slot = stP := by
        simp only [applySlot, hslot, hbufidx]
      rw [heq]
      have hpendP0 : stP.pending.getD slot.index [] =
          st.pending.getD slot.index [] ++ [it] := by
        show (st.pending.set slot.index
          (st.pending.getD slot.index [] ++ [it])).getD slot.index [] = _
        exact getD_set_self _ _ _ _ hidxp
      have hpendP : ∀ y, y ≠ slot.index →
          stP.pending.getD y [] = st.pending.getD y [] := by
        intro y hy
        show (st.pending.set slot.index
          (st.pending.getD slot.index [] ++ [it])).getD y [] = _
        exact getD_set_ne _ _ _ _ _ (Ne.symm hy)
      have hv0 : virtualStream stP rest slot.index =
          virtualStream st (slot :: rest) slot.index := by
        unfold virtualStream
        rw [hfut, hpendP0]
        show (st.buffer.getD slot.index none).toList ++
          (st.pending.getD slot.index [] ++ [it]) ++
          future slot.index rest = _
        simp [List.append_assoc]
      have hvne : ∀ j, j ≠ slot.index → virtualStream stP rest j =
          virtualStream st (slot :: rest) j := by
        intro j hj
        unfold virtualStream
        rw [future_cons_ne _ _ _ (Ne.symm hj), hpendP j hj]
      refine ⟨⟨hinv.hbuf, ?_, hinv.hclosed, ?_, ?_,
        hclosedPart stP rfl, hinv.nodup, hinv.hmem, hinv.heapOk,
        hmsgIdx'⟩, ?_⟩
      · show (st.pending.set slot.index
          (st.pending.getD slot.index [] ++ [it])).length = n
        simp [hinv.hpend]
      · intro j hj hpj
        by_cases hjj : j = slot.index
        · subst hjj
          rw [hbufidx]
          rfl
        · refine hinv.pendBuf j hj ?_
          rw [← hpendP j hjj]
          exact hpj
      · intro j hj
        by_cases hjj : j = slot.index
        · subst hjj
          rw [hv0]
          exact hinv.virtSorted slot.index hidx
        · rw [hvne j hjj]
          exact hinv.virtSorted j hj
      · intro j hj x hx
        by_cases hjj : j = slot.index
        · subst hjj
          rw [hv0] at hx
          exact hlo slot.index hidx x hx
        · rw [hvne j hjj] at hx
          exact hlo j hj x hx

/-- The whole coordinator loop: from an invariant state it emits a
sorted sequence bounded below by `lo`. -/
theorem runLoop_spec (limit : Nat) (msgs : List Slot) :
    ∀ (n : Nat) (st : MergeState) (lo : Int),
      MergeInv n st msgs → LoBound n lo st msgs →
      SortedByStart (runLoop limit msgs st) ∧
      ∀ e ∈ runLoop limit msgs st, lo ≤ startKey e := by
  induction msgs with
  | nil =>
    intro n st lo hinv hlo
    obtain ⟨lo', hlole, hinv2, hlo2, hsorted, hbound⟩ :=
      popPhaseGo_spec limit (popMeasure st) n st [] lo hinv hlo
    obtain ⟨hs2, hb2⟩ := drainGo_spec limit
      (popMeasure (popPhaseGo limit (popMeasure st) st).2) n
      (popPhaseGo limit (popMeasure st) st).2 lo' hinv2 hlo2
    have heq : runLoop limit [] st =
        (popPhaseGo limit (popMeasure st) st).1 ++
        drainGo limit (popMeasure (popPhaseGo limit (popMeasure st) st).2)
          (popPhaseGo limit (popMeasure st) st).2 := rfl
    rw [heq]
    constructor
    · exact List.pairwise_append.mpr ⟨hsorted, hs2, fun a ha b hb =>
        le_trans (hbound a ha).2 (hb2 b hb)⟩
    · intro e he
      rcases List.mem_append.mp he with h1 | h2
      · exact (hbound e h1).1
      · exact le_trans hlole (hb2 e h2)
  | cons slot rest ih =>
    intro n st lo hinv hlo
    obtain ⟨lo', hlole, hinv2, hlo2, hsorted, hbound⟩ :=
      popPhaseGo_spec limit (popMeasure st) n st (slot :: rest) lo hinv hlo
    obtain ⟨hinv3, hlo3⟩ := applySlot_spec n
      (popPhaseGo limit (popMeasure st) st).2 slot rest lo' hinv2 hlo2
    obtain ⟨hs2, hb2⟩ := ih n
      (applySlot (popPhaseGo limit (popMeasure st) st).2 slot) lo' hinv3 hlo3
    have heq : runLoop limit (slot :: rest) st =
        (popPhaseGo limit (popMeasure st) st).1 ++
        runLoop limit rest
          (applySlot (popPhaseGo limit (popMeasure st) st).2 slot) := rfl
    rw [heq]
    constructor
    · exact List.pairwise_append.mpr ⟨hsorted, hs2, fun a ha b hb =>
        le_trans (hbound a ha).2 (hb2 b hb)⟩
    · intro e he
      rcases List.mem_append.mp he with h1 | h2
      · exact (hbound e h1).1
      · exact le_trans hlole (hb2 e h2)

theorem getD_replicate_lt {α : Type} (n j : Nat) (a d : α) (hj : j < n) :
    (List.replicate n a).getD j d = a := by
  rw [List.getD_eq_getElem?_getD, List.getElem?_replicate]
  simp [hj]

theorem reduceOption_map_some_append_none (l : List ShowtimeListItem) :
    ((l.map some ++ [none]).reduceOption) = l := by
  induction l with
  | nil => rfl
  | cons x xs ih =>
    show ((some x :: (xs.map some ++ [none])).reduceOption) = x :: xs
    rw [List.reduceOption_cons_of_some, ih]

/-- A lower bound on every item any source will ever emit. -/
def minStartKey (items : List ShowtimeListItem) : Int :=
  items.foldr (fun x acc => min (startKey x) acc) 0

theorem minStartKey_le (items : List ShowtimeListItem) :
    ∀ x ∈ items, minStartKey items ≤ startKey x := by
  induction items with
  | nil => intro x hx; cases hx
  | cons y ys ih =>
    intro x hx
    rcases List.mem_cons.mp hx with rfl | h2
    · exact min_le_left _ _
    · exact le_trans (min_le_right _ _) (ih x h2)

/-- A valid schedule over sorted sources starts the loop in an
invariant state. -/
theorem initState_inv (srcs : List (List ShowtimeListItem)) (msgs : List Slot)
    (hvalid : ValidSchedule srcs msgs)
    (hsorted : ∀ l ∈ srcs, SortedByStart l) :
    MergeInv srcs.length (initState srcs.length) msgs ∧
      LoBound srcs.length (minStartKey (srcs.flatMap id))
        (initState srcs.length) msgs := by
  have hvirt : ∀ j, j < srcs.length →
      virtualStream (initState srcs.length) msgs j = srcs.getD j [] := by
    intro j hj
    show ((List.replicate srcs.length (none : Option ShowtimeListItem)).getD
        j none).toList ++
      (List.replicate srcs.length ([] : List ShowtimeListItem)).getD j [] ++
      future j msgs = srcs.getD j []
    rw [getD_replicate_lt _ _ _ _ hj, getD_replicate_lt _ _ _ _ hj]
    show future j msgs = srcs.getD j []
    unfold future
    rw [hvalid.2 j hj, reduceOption_map_some_append_none]
  refine ⟨⟨?_, ?_, ?_, ?_, ?_, ?_, ?_, ?_, ?_, hvalid.1⟩, ?_⟩
  · exact List.length_replicate _ _
  · exact List.length_replicate _ _
  · exact List.length_replicate _ _
  · intro j hj hpj
    exact absurd (getD_replicate_lt _ _ _ _ hj) hpj
  · intro j hj
    rw [hvirt j hj]
    exact hsorted _ (getD_mem srcs j [] hj)
  · intro j hj
    constructor
    · intro htrue
      rw [show (initState srcs.length).closed.getD j false = false from
        getD_replicate_lt _ _ _ _ hj] at htrue
      cases htrue
    · intro _
      exact ⟨srcs.getD j [], hvalid.2 j hj⟩
  · exact List.nodup_nil
  · intro y
    constructor
    · intro hy
      cases hy
    · rintro ⟨hyn, hysome⟩
      rw [show (initState srcs.length).buffer.getD y none = none from
        getD_replicate_lt _ _ _ _ hyn] at hysome
      cases hysome
  · intro c hc hcl
    simp [initState] at hcl
  · intro j hj x hx
    rw [hvirt j hj] at hx
    exact minStartKey_le _ x
      (List.mem_flatMap.mpr ⟨srcs.getD j [], getD_mem srcs j [] hj, hx⟩)

/-- C1: whenever every source emits its items in non-decreasing
`StartTime` order, the interleaved merge's output is sorted by
`StartTime`, for every delivery order the worker goroutines can produce
and every request limit; and merging A=[19:00, 21:00] with
B=[20:00, 22:00] with no limit yields exactly
[19:00(A), 20:00(B), 21:00(A), 22:00(B)] under every delivery order of
the two workers. -/
theorem interleaved_merge_sorted_by_start
    (srcs : List (List ShowtimeListItem)) (msgs : List Slot) (reqLimit : Int)
    (hvalid : ValidSchedule srcs msgs)
    (hsorted : ∀ l ∈ srcs, SortedByStart l) :
    SortedByStart (interleavedRun srcs.length reqLimit msgs) ∧
      (∀ ms ∈ interleavings
          (slotStream 0 [⟨⟨"a1", "A first", 1900⟩⟩, ⟨⟨"a2", "A second", 2100⟩⟩])
          (slotStream 1 [⟨⟨"b1", "B mid", 2000⟩⟩, ⟨⟨"b2", "B last", 2200⟩⟩]),
        interleavedRun 2 0 ms =
          [⟨⟨"a1", "A first", 1900⟩⟩, ⟨⟨"b1", "B mid", 2000⟩⟩,
           ⟨⟨"a2", "A second", 2100⟩⟩, ⟨⟨"b2", "B last", 2200⟩⟩]) := by
  constructor
  · obtain ⟨hinv, hlo⟩ := initState_inv srcs msgs hvalid hsorted
    exact (runLoop_spec (effLimit reqLimit) msgs srcs.length
      (initState srcs.length) _ hinv hlo).1
  · decide

/-- C1 witness: the two spec sources under one concrete delivery
order. -/
theorem interleaved_merge_sorted_by_start_witness :
    SortedByStart (interleavedRun 2 0
      (slotStream 0 [⟨⟨"a1", "A first", 1900⟩⟩, ⟨⟨"a2", "A second", 2100⟩⟩] ++
       slotStream 1 [⟨⟨"b1", "B mid", 2000⟩⟩, ⟨⟨"b2", "B last", 2200⟩⟩])) :=
  (interleaved_merge_sorted_by_start
    [[⟨⟨"a1", "A first", 1900⟩⟩, ⟨⟨"a2", "A second", 2100⟩⟩],
     [⟨⟨"b1", "B mid", 2000⟩⟩, ⟨⟨"b2", "B last", 2200⟩⟩]]
    (slotStream 0 [⟨⟨"a1", "A first", 1900⟩⟩, ⟨⟨"a2", "A second", 2100⟩⟩] ++
     slotStream 1 [⟨⟨"b1", "B mid", 2000⟩⟩, ⟨⟨"b2", "B last", 2200⟩⟩]) 0
    (by decide) (by decide)).1

end PdxWatcher
